import Mathlib

/-!
Verification development for the goli terminal-UI engine.

Each Go source function referenced by the specification is shallowly
embedded as an executable Lean definition (Go `int` becomes `Int` or,
where values are grid coordinates, `Nat`; Go slices and maps become
lists; Go panics become `Except.error`).  Theorems at the end of the
file settle the specification claims against these definitions.
-/

namespace Goli

/-- Terminal colors, from the `Color` enumeration of the cell package
(`ColorNone` .. `ColorWhite`); the bright variants are referenced by the
ANSI encoder's color tables.  `none` means "no color set" (transparent). -/
inductive Color where
  | none
  | default
  | black
  | red
  | green
  | yellow
  | blue
  | magenta
  | cyan
  | white
  | brightBlack
  | brightRed
  | brightGreen
  | brightYellow
  | brightBlue
  | brightMagenta
  | brightCyan
  | brightWhite
deriving DecidableEq, Repr

/-- Source `NameToColor`: the string → color table of the cell package. -/
def NameToColor (s : String) : Option Color :=
  if s = "default" then some Color.default
  else if s = "black" then some Color.black
  else if s = "red" then some Color.red
  else if s = "green" then some Color.green
  else if s = "yellow" then some Color.yellow
  else if s = "blue" then some Color.blue
  else if s = "magenta" then some Color.magenta
  else if s = "cyan" then some Color.cyan
  else if s = "white" then some Color.white
  else Option.none

/-- A 24-bit RGB color (`RGB` struct); components are bytes 0..255. -/
structure RGB where
  r : Nat
  g : Nat
  b : Nat
deriving DecidableEq, Repr

/-- Modelled from the spec: the `hyperlinkURL` field of this `Style`
struct (a style carries "an optional terminal-hyperlink URL", absent =
`""`); the cell source declaring it is missing, only its uses in
`ansi.go` and `link.go` remain.  All remaining fields follow the
`Style` struct of the cell source: colors, the six boolean flags, and
optional RGB colors (Go `*RGB` pointers become `Option RGB`). -/
structure Style where
  color : Color
  background : Color
  bold : Bool
  dim : Bool
  italic : Bool
  underline : Bool
  inverse : Bool
  strikethrough : Bool
  colorRGB : Option RGB
  backgroundRGB : Option RGB
  hyperlinkURL : String
deriving DecidableEq, Repr

/-- Source `EmptyStyle`: a `Style` with no attributes set. -/
def EmptyStyle : Style :=
  ⟨Color.none, Color.none, false, false, false, false, false, false,
   Option.none, Option.none, ""⟩

/-- A terminal cell (`Cell` struct): a character plus its style. -/
structure Cell where
  char : Char
  style : Style
deriving DecidableEq, Repr

/-- Source `EmptyCell`: a space character with the empty style. -/
def EmptyCell : Cell := ⟨' ', EmptyStyle⟩

/-- Source `New`: cell constructor. -/
def New (char : Char) (style : Style) : Cell := ⟨char, style⟩

/-- Source `rgbEqual`: pointer-aware RGB comparison (nil/nil, nil/non-nil,
componentwise). -/
def rgbEqual (a b : Option RGB) : Bool :=
  match a, b with
  | Option.none, Option.none => true
  | some a, some b => decide (a.r = b.r) && decide (a.g = b.g) && decide (a.b = b.b)
  | _, _ => false

/-- Source `Style.Equal`: structural style equality (colors, the six flags, and
the RGB fields; the hyperlink URL is compared separately by the ANSI
encoder, not here). -/
def Style.Equal (a b : Style) : Bool :=
  if ¬ (a.color = b.color) ∨ ¬ (a.background = b.background) then false
  else if ¬ (a.bold = b.bold) ∨ ¬ (a.dim = b.dim) ∨ ¬ (a.italic = b.italic) ∨
    ¬ (a.underline = b.underline) ∨ ¬ (a.inverse = b.inverse) ∨
    ¬ (a.strikethrough = b.strikethrough) then false
  else if ¬ (rgbEqual a.colorRGB b.colorRGB) then false
  else rgbEqual a.backgroundRGB b.backgroundRGB

/-- Source `Cell.Equal`: character equality then structural style equality. -/
def Cell.Equal (a b : Cell) : Bool :=
  if ¬ (a.char = b.char) then false else a.style.Equal b.style

/-- Source `Style.HasColor`: a foreground color is set. -/
def Style.HasColor (s : Style) : Bool :=
  decide (¬ (s.color = Color.none)) || s.colorRGB.isSome

/-- Source `Style.HasBackground`: a background color is set. -/
def Style.HasBackground (s : Style) : Bool :=
  decide (¬ (s.background = Color.none)) || s.backgroundRGB.isSome

/-- Modelled from the spec: the hyperlink clause of `Style.Merge`
("replaces the hyperlink URL only when overlay specifies one") — the
cell source carrying that field is missing.  Every other clause follows
the `Merge` of the cell source: field by field, the overlay takes
precedence for non-zero values. -/
def Style.Merge (base overlay : Style) : Style :=
  { color := if ¬ (overlay.color = Color.none) then overlay.color else base.color
    colorRGB := if ¬ (overlay.color = Color.none) then overlay.colorRGB else base.colorRGB
    background := if ¬ (overlay.background = Color.none) then overlay.background else base.background
    backgroundRGB :=
      if ¬ (overlay.background = Color.none) then overlay.backgroundRGB else base.backgroundRGB
    bold := if overlay.bold then true else base.bold
    dim := if overlay.dim then true else base.dim
    italic := if overlay.italic then true else base.italic
    underline := if overlay.underline then true else base.underline
    inverse := if overlay.inverse then true else base.inverse
    strikethrough := if overlay.strikethrough then true else base.strikethrough
    hyperlinkURL :=
      if ¬ (overlay.hyperlinkURL = "") then overlay.hyperlinkURL else base.hyperlinkURL }

/-- The dynamic values the style parser's `toColor` can receive
(Go `any`): a color name string, a `Color`, an `RGB` value, an `*RGB`
pointer, or anything else. -/
inductive ColorProp where
  | str (s : String)
  | col (c : Color)
  | rgbVal (r : RGB)
  | rgbPtr (p : Option RGB)
  | other
deriving DecidableEq, Repr

/-- Source `toColor` from the layout package: turns a dynamic prop value into a
`(named color, RGB pointer)` pair. -/
def toColor : ColorProp → Color × Option RGB
  | ColorProp.str s =>
    match NameToColor s with
    | some c => (c, Option.none)
    | Option.none => (Color.none, Option.none)
  | ColorProp.col c => (c, Option.none)
  | ColorProp.rgbVal r => (Color.none, some r)
  | ColorProp.rgbPtr p => (Color.none, p)
  | ColorProp.other => (Color.none, Option.none)

/-- Source `CellBuffer`: a fixed-size grid of cells stored row-major.
Coordinates are `Nat` (the Go code additionally rejects negative
coordinates, which the type excludes here). -/
structure CellBuffer where
  width : Nat
  height : Nat
  cells : List Cell
deriving DecidableEq, Repr

/-- Row-major index of `(x, y)`. -/
def CellBuffer.index (b : CellBuffer) (x y : Nat) : Nat := y * b.width + x

/-- Bounds check of `CellBuffer`. -/
def CellBuffer.inBounds (b : CellBuffer) (x y : Nat) : Bool :=
  decide (x < b.width) && decide (y < b.height)

/-- Source `NewCellBuffer`: a buffer filled with empty cells. -/
def NewCellBuffer (width height : Nat) : CellBuffer :=
  ⟨width, height, List.replicate (width * height) EmptyCell⟩

/-- Source `CellBuffer.Get`: the cell at `(x, y)`, or `EmptyCell` out of bounds. -/
def CellBuffer.Get (b : CellBuffer) (x y : Nat) : Cell :=
  if b.inBounds x y then b.cells.getD (b.index x y) EmptyCell else EmptyCell

/-- Source `CellBuffer.Set`: writes the cell at `(x, y)`; out-of-bounds writes
are dropped. -/
def CellBuffer.Set (b : CellBuffer) (x y : Nat) (c : Cell) : CellBuffer :=
  if b.inBounds x y then { b with cells := b.cells.set (b.index x y) c } else b

/-- The well-formedness invariant `NewCellBuffer` establishes and `Set`
preserves: the backing list has exactly `width * height` cells. -/
def CellBuffer.WF (b : CellBuffer) : Prop := b.cells.length = b.width * b.height

/-- Source `CellChange`: one diff entry `(x, y, new cell)`. -/
structure CellChange where
  x : Nat
  y : Nat
  cell : Cell
deriving DecidableEq, Repr

/-- Source `DiffBuffers`: the changes turning `from` into `to` — the overlapping
rectangle yields a change wherever cells compare unequal, rows of `to`
beyond the overlap and columns of `to` beyond the overlap are emitted
unconditionally, in the Go loop order. -/
def DiffBuffers (a b : CellBuffer) : List CellChange :=
  let width := min a.width b.width
  let height := min a.height b.height
  ((List.range height).flatMap fun y =>
    (List.range width).filterMap fun x =>
      if (a.Get x y).Equal (b.Get x y) then Option.none
      else some ⟨x, y, b.Get x y⟩)
  ++ ((List.range' height (b.height - height)).flatMap fun y =>
    (List.range b.width).map fun x => (⟨x, y, b.Get x y⟩ : CellChange))
  ++ ((List.range height).flatMap fun y =>
    (List.range' width (b.width - width)).map fun x => (⟨x, y, b.Get x y⟩ : CellChange))

/-- Applying a list of diff entries to a buffer by plain `Set`, the
operation the spec's `A ⊕ diff = B` property quantifies over. -/
def applyChanges (a : CellBuffer) (cs : List CellChange) : CellBuffer :=
  cs.foldl (fun b c => b.Set c.x c.y c.cell) a

/-- Source `MaxBufferHeight`: growth cap of a `LogicalBuffer`. -/
def MaxBufferHeight : Nat := 10000

/-- A `LogicalBuffer` is an ordered sequence of variable-length rows;
its `height` field always equals the number of rows, so the rows list
alone represents it. -/
def LogicalRows := List (List Cell)

/-- One logical row chunked into visual rows of at most `w` cells, as
the inner `for i := 0; i < len(row.Cells); i += terminalWidth` loop.
(The Go loop does not terminate for `w = 0`; the reflow entry point is
only ever called with a positive terminal width.) -/
def chunkRow (w : Nat) (cells : List Cell) : List (List Cell) :=
  if w = 0 then []
  else if cells.isEmpty then []
  else cells.take w :: chunkRow w (cells.drop w)
termination_by cells.length
decreasing_by
  rename_i hw hne
  have hc : 0 < cells.length := by
    cases cells with
    | nil => simp at hne
    | cons a l => simp
  simp only [List.length_drop]
  omega

/-- Source `VisualRows`: the visual rows plus, per logical row, the index of its
first visual row. -/
structure VisualRows where
  Rows : List (List Cell)
  LogicalToVisual : List Nat
deriving Repr

/-- Source `LogicalBuffer.ToVisualRows`: walks the logical rows in order,
recording for each the current visual-row count, then appending one
empty visual row for an empty logical row and the `terminalWidth`-sized
chunks otherwise. -/
def ToVisualRows (rows : LogicalRows) (terminalWidth : Nat) : VisualRows :=
  rows.foldl
    (fun acc row =>
      ⟨acc.Rows ++ (if row.isEmpty then [[]] else chunkRow terminalWidth row),
       acc.LogicalToVisual ++ [acc.Rows.length]⟩)
    ⟨[], []⟩

/-- The visual rows one logical row contributes: one empty visual row
when the logical row is empty, its chunks otherwise. -/
def visualRowsOf (w : Nat) (row : List Cell) : List (List Cell) :=
  if row.isEmpty then [[]] else chunkRow w row

/-- The first-visual-row indices of consecutive logical rows, starting
from a given visual-row count. -/
def idxFrom (w : Nat) (start : Nat) : LogicalRows → List Nat
  | [] => []
  | r :: rs => start :: idxFrom w (start + (visualRowsOf w r).length) rs

/-- The remainder pass of the flex grow distribution: walk the children
in encounter order, handing one extra cell to each `grow > 0` child
while `remaining > 0` (a non-positive `remaining` stops the walk, as the
`break` in the Go loop). Returns the updated shares. -/
def distributeRemainder : List Int → List Int → Int → List Int
  | _, [], _ => []
  | [], shares, _ => shares
  | g :: gs, s :: ss, remaining =>
    if remaining ≤ 0 then s :: ss
    else if 0 < g then (s + 1) :: distributeRemainder gs ss (remaining - 1)
    else s :: distributeRemainder gs ss remaining

/-- The grow-share pre-calculation block of `layoutFlexChildren`: when
`totalGrow > 0` and `extraSpace > 0`, each `grow > 0` child gets
`extraSpace * grow / totalGrow` and the remainder is handed out one cell
each in encounter order; otherwise all shares stay zero. -/
def growShares (grows : List Int) (extra : Int) : List Int :=
  let totalGrow := grows.sum
  if 0 < totalGrow ∧ 0 < extra then
    let base := grows.map fun g => if 0 < g then extra * g / totalGrow else 0
    distributeRemainder grows base (extra - base.sum)
  else
    grows.map fun _ => 0

/-! Reactive runtime: signals and computations become numeric ids, the
runtime's state becomes a record, and a computation's `execute` (whose
body is outside this claim's scope) becomes an execution counter. -/

/-- The runtime state relevant to batched writes: signal values, the
subscriber set of each signal, the batch depth, the pending set (as a
duplicate-free list — the Go pending set is a map), and an execution
counter per computation standing for `computation.execute`. -/
structure RtState (α : Type) where
  values : Nat → α
  subscribers : Nat → List Nat
  batchDepth : Nat
  pending : List Nat
  execCount : Nat → Nat

/-- Source `Runtime.addPendingComputation`: map insertion — a no-op when the
computation is already pending. -/
def addPending {α : Type} (st : RtState α) (c : Nat) : RtState α :=
  if c ∈ st.pending then st else { st with pending := st.pending ++ [c] }

/-- Source `computation.execute`, observed as its execution count. -/
def executeComp {α : Type} (st : RtState α) (c : Nat) : RtState α :=
  { st with execCount := fun x => if x = c then st.execCount x + 1 else st.execCount x }

/-- The signal writer of `createSignalInternal`: store the value, then
either add every subscriber to the pending set (inside a batch) or
execute every subscriber (outside). -/
def writeSignal {α : Type} (st : RtState α) (s : Nat) (v : α) : RtState α :=
  let st1 : RtState α := { st with values := fun x => if x = s then v else st.values x }
  let subs := st.subscribers s
  if 0 < st1.batchDepth then subs.foldl addPending st1
  else subs.foldl executeComp st1

/-- Source `Runtime.flushPending`: snapshot the pending set, clear it, and
execute each snapshotted computation once. -/
def flushPending {α : Type} (st : RtState α) : RtState α :=
  let toRun := st.pending
  let st1 : RtState α := { st with pending := [] }
  toRun.foldl executeComp st1

/-- Source `Batch(f)` where the body `f` performs the given list of signal
writes: increment the batch depth, run the writes, decrement, and flush
when the depth reaches zero. -/
def batchWrites {α : Type} (st : RtState α) (ws : List (Nat × α)) : RtState α :=
  let st1 : RtState α := { st with batchDepth := st.batchDepth + 1 }
  let st2 := ws.foldl (fun s w => writeSignal s w.1 w.2) st1
  let st3 : RtState α := { st2 with batchDepth := st2.batchDepth - 1 }
  if st3.batchDepth = 0 then flushPending st3 else st3

/-! Focus manager: focusables become numeric ids; `Focus()` on a
focusable calls `RequestFocus`, which (inside a reactive batch) updates
the current-focus signal, modelled directly on the `current` field. -/

/-- Source `Tab` key constant. -/
def Tab : String := "\t"

/-- Source `ShiftTab` key constant. -/
def ShiftTab : String := "\x1b[Z"

/-- Focus-manager state: the registration-ordered focusables and the
current focus. -/
structure FocusManager where
  registered : List Nat
  current : Option Nat
deriving DecidableEq, Repr

/-- Source `FocusManager.RequestFocus`: a no-op when `f` is already current,
otherwise the current focus becomes `f`. -/
def FocusManager.RequestFocus (m : FocusManager) (f : Nat) : FocusManager :=
  if m.current = some f then m else { m with current := some f }

/-- Source `FocusManager.Next`: with no focusables do nothing; with no current
focus the first focusable; otherwise advance the found index by one with
wrap-around (a missing current yields index `-1`, as in Go). -/
def FocusManager.Next (m : FocusManager) : FocusManager :=
  match m.registered with
  | [] => m
  | f0 :: _ =>
    match m.current with
    | Option.none => m.RequestFocus f0
    | some cur =>
      let currentIndex : Int :=
        match m.registered.findIdx? (fun g => g == cur) with
        | some i => (i : Int)
        | Option.none => -1
      let nextIndex := ((currentIndex + 1) % (m.registered.length : Int)).toNat
      m.RequestFocus (m.registered.getD nextIndex f0)

/-- Source `FocusManager.Prev`: as `Next`, but with no current focus the last
focusable, and the index retreats by one with wrap-around. -/
def FocusManager.Prev (m : FocusManager) : FocusManager :=
  match m.registered with
  | [] => m
  | f0 :: _ =>
    match m.current with
    | Option.none => m.RequestFocus (m.registered.getD (m.registered.length - 1) f0)
    | some cur =>
      let currentIndex : Int :=
        match m.registered.findIdx? (fun g => g == cur) with
        | some i => (i : Int)
        | Option.none => -1
      let prevIndex :=
        ((currentIndex - 1 + (m.registered.length : Int)) % (m.registered.length : Int)).toNat
      m.RequestFocus (m.registered.getD prevIndex f0)

/-- Source `FocusManager.HandleKey`: Tab advances focus, Shift-Tab retreats
(both consumed); otherwise the key goes to the current focusable's
handler and, unconsumed, to the global handler.  Element handlers are
parameters (their own state changes are outside the focus ring). -/
def FocusManager.HandleKey (m : FocusManager)
    (elemConsumes : Nat → String → Bool)
    (globalHandler : Option (String → Bool))
    (key : String) : FocusManager × Bool :=
  if key = Tab then (m.Next, true)
  else if key = ShiftTab then (m.Prev, true)
  else
    let fallback : Bool :=
      match globalHandler with
      | some h => h key
      | Option.none => false
    match m.current with
    | some cur => if elemConsumes cur key then (m, true) else (m, fallback)
    | Option.none => (m, fallback)

/-! Text wrapping.  `WrapText` indexes Go strings by byte, so here a Go
string is its UTF-8 byte sequence (`List Nat`, one entry per byte). -/
namespace Wrap

/-- Source `utf8.RuneCountInString` on a byte sequence: every byte that is not
a UTF-8 continuation byte starts a rune. -/
def runeCount (s : List Nat) : Nat :=
  (s.filter fun b => decide (b < 0x80) || decide (0xC0 ≤ b)).length

/-- Source `RuneWidth` of the layout package: the rune count of the string
(its doc comment claims display width, but it counts runes). -/
def RuneWidth (s : List Nat) : Nat := runeCount s

/-- Source `strings.Split(text, "\n")` at the byte level. -/
def splitLines : List Nat → List (List Nat)
  | [] => [[]]
  | b :: rest =>
    let r := splitLines rest
    if b = 10 then [] :: r
    else
      match r with
      | [] => [[b]]
      | h :: t => (b :: h) :: t

/-- Source `strings.LastIndex(s, " ")` at the byte level: the last byte index
holding a space, or `-1`. -/
def lastIndexSpace (s : List Nat) : Int :=
  s.enum.foldl (fun acc p => if p.2 = 32 then (p.1 : Int) else acc) (-1)

/-- Source `strings.TrimLeft(s, " ")` at the byte level. -/
def trimLeftSpaces (s : List Nat) : List Nat :=
  s.dropWhile fun b => decide (b = 32)

/-- The wrapping loop of `WrapText` for one over-long line: while the
remaining byte length exceeds `maxWidth`, break at the last space within
the first `maxWidth + 1` bytes unless that break is absent, at index 0,
or before the midpoint (then hard-break at `maxWidth`); emit the piece
and trim a leading space run.  The trailing remainder is emitted when
non-empty.  (`w = 0` never reaches this loop: `WrapText` returns early
for non-positive widths; the Go loop would not terminate there.) -/
def wrapLoop (w : Nat) (remaining : List Nat) : List (List Nat) :=
  if w = 0 then [remaining]
  else if remaining.length ≤ w then
    if remaining.length > 0 then [remaining] else []
  else
    let bp0 : Int := lastIndexSpace (remaining.take (w + 1))
    let bp : Nat := if bp0 ≤ 0 ∨ bp0 < (w : Int) / 2 then w else bp0.toNat
    remaining.take bp :: wrapLoop w (trimLeftSpaces (remaining.drop bp))
termination_by remaining.length
decreasing_by
  rename_i hw hlen
  have key : ∀ bpn : Nat, 1 ≤ bpn →
      (trimLeftSpaces (List.drop bpn remaining)).length < remaining.length := by
    intro bpn h1
    have hs : (trimLeftSpaces (List.drop bpn remaining)).length ≤
        (List.drop bpn remaining).length := by
      unfold trimLeftSpaces
      exact (List.dropWhile_sublist _).length_le
    have hd : (List.drop bpn remaining).length = remaining.length - bpn :=
      List.length_drop ..
    omega
  refine key _ ?_
  split
  · omega
  · rename_i hcond
    push_neg at hcond
    have := hcond.1
    omega

/-- Source `WrapText`: non-positive widths return the text unchanged; otherwise
split on newlines, keep lines whose rune count fits, and wrap the rest
byte-wise via the wrapping loop. -/
def WrapText (text : List Nat) (maxWidth : Int) : List (List Nat) :=
  if maxWidth ≤ 0 then [text]
  else
    let w := maxWidth.toNat
    (splitLines text).flatMap fun line =>
      if RuneWidth line ≤ w then [line] else wrapLoop w line

end Wrap

/-! ANSI encoder.  The Go functions append to a `strings.Builder`; here
each emits the string it appends, and sequential `WriteString` calls
become concatenation in the same order. -/

/-- Pre-computed escape prefix `CSI`. -/
def csiStr : String := "\x1b["

/-- Full SGR reset. -/
def resetStr : String := "\x1b[0m"

/-- SGR bold. -/
def boldStr : String := "\x1b[1m"

/-- SGR dim. -/
def dimStr : String := "\x1b[2m"

/-- SGR italic. -/
def italicStr : String := "\x1b[3m"

/-- SGR underline. -/
def underStr : String := "\x1b[4m"

/-- SGR inverse. -/
def invStr : String := "\x1b[7m"

/-- SGR strikethrough. -/
def strikeStr : String := "\x1b[9m"

/-- OSC 8 hyperlink terminator. -/
def hyperlinkEnd : String := "\x1b]8;;\x1b\\"

/-- Source `HyperlinkStart`: the OSC 8 sequence opening a hyperlink. -/
def HyperlinkStart (url : String) : String := "\x1b]8;;" ++ url ++ "\x1b\\"

/-- Source `MoveCursor`: ANSI cursor positioning; ANSI coordinates are 1-based. -/
def MoveCursor (x y : Nat) : String :=
  csiStr ++ toString (y + 1) ++ ";" ++ toString (x + 1) ++ "H"

/-- The `fgCodes` table indexed by `Color`. -/
def fgCode : Color → String
  | Color.none => ""
  | Color.default => "\x1b[39m"
  | Color.black => "\x1b[30m"
  | Color.red => "\x1b[31m"
  | Color.green => "\x1b[32m"
  | Color.yellow => "\x1b[33m"
  | Color.blue => "\x1b[34m"
  | Color.magenta => "\x1b[35m"
  | Color.cyan => "\x1b[36m"
  | Color.white => "\x1b[37m"
  | Color.brightBlack => "\x1b[90m"
  | Color.brightRed => "\x1b[91m"
  | Color.brightGreen => "\x1b[92m"
  | Color.brightYellow => "\x1b[93m"
  | Color.brightBlue => "\x1b[94m"
  | Color.brightMagenta => "\x1b[95m"
  | Color.brightCyan => "\x1b[96m"
  | Color.brightWhite => "\x1b[97m"

/-- The `bgCodes` table indexed by `Color`. -/
def bgCode : Color → String
  | Color.none => ""
  | Color.default => "\x1b[49m"
  | Color.black => "\x1b[40m"
  | Color.red => "\x1b[41m"
  | Color.green => "\x1b[42m"
  | Color.yellow => "\x1b[43m"
  | Color.blue => "\x1b[44m"
  | Color.magenta => "\x1b[45m"
  | Color.cyan => "\x1b[46m"
  | Color.white => "\x1b[47m"
  | Color.brightBlack => "\x1b[100m"
  | Color.brightRed => "\x1b[101m"
  | Color.brightGreen => "\x1b[102m"
  | Color.brightYellow => "\x1b[103m"
  | Color.brightBlue => "\x1b[104m"
  | Color.brightMagenta => "\x1b[105m"
  | Color.brightCyan => "\x1b[106m"
  | Color.brightWhite => "\x1b[107m"

/-- Source `ColorToAnsi`: RGB first (`38;2;R;G;B` / `48;2;R;G;B`), otherwise the
pre-computed named-color code. -/
def ColorToAnsi (color : Color) (rgb : Option RGB) (isFg : Bool) : String :=
  match rgb with
  | some rgb =>
    if isFg then
      csiStr ++ "38;2;" ++ toString rgb.r ++ ";" ++ toString rgb.g ++ ";" ++ toString rgb.b ++ "m"
    else
      csiStr ++ "48;2;" ++ toString rgb.r ++ ";" ++ toString rgb.g ++ ";" ++ toString rgb.b ++ "m"
  | Option.none => if isFg then fgCode color else bgCode color

/-- Source `StyleToAnsi`: the SGR codes a style writes to the builder, in the
source's emission order. -/
def StyleToAnsi (style : Style) : String :=
  (if style.bold then boldStr else "")
  ++ (if style.dim then dimStr else "")
  ++ (if style.italic then italicStr else "")
  ++ (if style.underline then underStr else "")
  ++ (if style.inverse then invStr else "")
  ++ (if style.strikethrough then strikeStr else "")
  ++ (if ¬ (style.color = Color.none) ∨ style.colorRGB.isSome then
        ColorToAnsi style.color style.colorRGB true else "")
  ++ (if ¬ (style.background = Color.none) ∨ style.backgroundRGB.isSome then
        ColorToAnsi style.background style.backgroundRGB false else "")

/-- Source `CellRun`: a run of horizontally consecutive cells. -/
structure CellRun where
  x : Nat
  y : Nat
  cells : List Cell
deriving Repr

/-- The per-cell loop of `RunToAnsi`, threading the tracked current
style (`none` before the first cell) and current hyperlink URL. -/
def runLoop : List Cell → Option Style → String → String
  | [], _, currentHyperlink =>
    if ¬ (currentHyperlink = "") then hyperlinkEnd else ""
  | c :: cs, currentStyle, currentHyperlink =>
    let styleChanged :=
      match currentStyle with
      | Option.none => true
      | some st => ¬ (st.Equal c.style = true)
    let hyperlinkChanged := ¬ (c.style.hyperlinkURL = currentHyperlink)
    if styleChanged then
      (if ¬ (currentHyperlink = "") then hyperlinkEnd else "")
      ++ resetStr ++ StyleToAnsi c.style
      ++ (if ¬ (c.style.hyperlinkURL = "") then HyperlinkStart c.style.hyperlinkURL else "")
      ++ String.singleton c.char
      ++ runLoop cs (some c.style) c.style.hyperlinkURL
    else if hyperlinkChanged then
      (if ¬ (currentHyperlink = "") then hyperlinkEnd else "")
      ++ (if ¬ (c.style.hyperlinkURL = "") then HyperlinkStart c.style.hyperlinkURL else "")
      ++ String.singleton c.char
      ++ runLoop cs currentStyle c.style.hyperlinkURL
    else
      String.singleton c.char ++ runLoop cs currentStyle currentHyperlink

/-- Source `RunToAnsi`: cursor move for the run, then the tracked-style cell
loop, then the close of any open hyperlink (inside `runLoop`'s base
case). -/
def RunToAnsi (run : CellRun) : String :=
  MoveCursor run.x run.y ++ runLoop run.cells Option.none ""

/-- Concatenation of a list of emitted strings. -/
def concatAll (l : List String) : String := l.foldr (· ++ ·) ""

/-- The SGR codes of a style in the order the specification fixes:
bold, dim, italic, underline, inverse, strikethrough, foreground,
background.  Stated from the spec's words for comparison with
`StyleToAnsi`. -/
def specSgrCodes (s : Style) : List String :=
  (if s.bold then [boldStr] else [])
  ++ (if s.dim then [dimStr] else [])
  ++ (if s.italic then [italicStr] else [])
  ++ (if s.underline then [underStr] else [])
  ++ (if s.inverse then [invStr] else [])
  ++ (if s.strikethrough then [strikeStr] else [])
  ++ (if s.HasColor then [ColorToAnsi s.color s.colorRGB true] else [])
  ++ (if s.HasBackground then [ColorToAnsi s.background s.backgroundRGB false] else [])

/-- The spec-side encoding of one run, stated from the claim's words:
first a cursor move addressed 1-based at `(x+1, y+1)`, then per cell —
whenever the style differs from the tracked current style — a full reset
`CSI 0 m` followed by the new style's SGR codes in the fixed order,
before the cell's character (hyperlink open/close bracketing as in
§4.5). -/
def specRunLoop : List Cell → Option Style → String → String
  | [], _, url => if ¬ (url = "") then hyperlinkEnd else ""
  | c :: cs, tracked, url =>
    let emitRestyled :=
      (if ¬ (url = "") then hyperlinkEnd else "")
      ++ "\x1b[0m" ++ concatAll (specSgrCodes c.style)
      ++ (if ¬ (c.style.hyperlinkURL = "") then HyperlinkStart c.style.hyperlinkURL else "")
      ++ String.singleton c.char
      ++ specRunLoop cs (some c.style) c.style.hyperlinkURL
    match tracked with
    | Option.none => emitRestyled
    | some st =>
      if st.Equal c.style then
        if c.style.hyperlinkURL = url then
          String.singleton c.char ++ specRunLoop cs tracked url
        else
          (if ¬ (url = "") then hyperlinkEnd else "")
          ++ (if ¬ (c.style.hyperlinkURL = "") then HyperlinkStart c.style.hyperlinkURL else "")
          ++ String.singleton c.char
          ++ specRunLoop cs tracked c.style.hyperlinkURL
      else emitRestyled

/-- The spec-side run encoder (see `specRunLoop`). -/
def specRunToAnsi (run : CellRun) : String :=
  "\x1b[" ++ toString (run.y + 1) ++ ";" ++ toString (run.x + 1) ++ "H"
  ++ specRunLoop run.cells Option.none ""

/-! Layout engine.  VNodes (the external `gox.VNode`) become `Node`:
the dynamic `Type` field is a string or a functional component, the
dynamic property bag becomes an association list of tagged values
(numeric property values are `int`s here; the Go accessors' `float64`
fallbacks have no counterpart), children are a node list. -/

/-- A dynamic property value. -/
inductive PVal where
  | int (i : Int)
  | bool (b : Bool)
  | str (s : String)
  | spacingV (top right bottom left : Int)
deriving DecidableEq, Repr

/-- The dynamic `VNode.Type`: an element-kind string or a functional
component (opaque after expansion). -/
inductive NType where
  | str (s : String)
  | comp
deriving DecidableEq, Repr

/-- A virtual node: dynamic type tag, property bag, ordered children. -/
inductive Node where
  | mk (type : NType) (props : List (String × PVal)) (children : List Node)
deriving Repr

/-- Source `Spacing`: padding or margin on four sides. -/
structure Spacing where
  top : Int
  right : Int
  bottom : Int
  left : Int
deriving DecidableEq, Repr

/-- The type tag of a node. -/
def Node.type : Node → NType
  | ⟨t, _, _⟩ => t

/-- The property bag of a node. -/
def Node.props : Node → List (String × PVal)
  | ⟨_, p, _⟩ => p

/-- The children of a node. -/
def Node.children : Node → List Node
  | ⟨_, _, c⟩ => c

/-- Go map lookup on a property bag. -/
def pget (props : List (String × PVal)) (k : String) : Option PVal :=
  (props.find? fun kv => kv.1 == k).map (·.2)

/-- Modelled from the spec: the external `gox` package's text-node
marker string `gox.TextNodeType` is not among the sources; its exact
value is irrelevant here, only that it is a fixed string. -/
def TextNodeType : String := "__text__"

/-- Modelled from the spec: the external `gox` package's fragment
marker `gox.FragmentNodeType` (the repository's tests print it as
`__fragment__`). -/
def FragmentNodeType : String := "__fragment__"

/-- Source `TypeString`: the node type as a string, when it is one. -/
def TypeString (n : Node) : Option String :=
  match n.type with
  | NType.str s => some s
  | NType.comp => Option.none

/-- Source `IsTextNode`. -/
def IsTextNode (n : Node) : Bool :=
  match n.type with
  | NType.str s => s == TextNodeType
  | NType.comp => false

/-- Source `GetTextContent`: the `content` property of a text node, falling
back to `text`. -/
def GetTextContent (n : Node) : Option String :=
  if IsTextNode n then
    match pget n.props "content" with
    | some (PVal.str c) => some c
    | _ =>
      match pget n.props "text" with
      | some (PVal.str t) => some t
      | _ => Option.none
  else Option.none

/-- Source `GetIntProp`: an integer property with a default. -/
def GetIntProp (props : List (String × PVal)) (key : String) (defaultVal : Int) : Int :=
  match pget props key with
  | some (PVal.int i) => i
  | _ => defaultVal

/-- Source `NormalizeSpacing`: a scalar spreads to all four sides; a spacing
record passes through; anything else is zero spacing. -/
def NormalizeSpacing : Option PVal → Spacing
  | some (PVal.int v) => ⟨v, v, v, v⟩
  | some (PVal.spacingV t r b l) => ⟨t, r, b, l⟩
  | _ => ⟨0, 0, 0, 0⟩

/-- Source `getIntFromAny`. -/
def getIntFromAny : PVal → Int
  | PVal.int i => i
  | _ => 0

/-- Source `GetSpacing`: the base property, then the four directional
overrides. -/
def GetSpacing (props : List (String × PVal)) (baseProp : String) : Spacing :=
  let spacing := NormalizeSpacing (pget props baseProp)
  let spacing := match pget props (baseProp ++ "Top") with
    | some v => { spacing with top := getIntFromAny v }
    | Option.none => spacing
  let spacing := match pget props (baseProp ++ "Right") with
    | some v => { spacing with right := getIntFromAny v }
    | Option.none => spacing
  let spacing := match pget props (baseProp ++ "Bottom") with
    | some v => { spacing with bottom := getIntFromAny v }
    | Option.none => spacing
  match pget props (baseProp ++ "Left") with
  | some v => { spacing with left := getIntFromAny v }
  | Option.none => spacing

/-- Source `GetBorderStyle`: `BorderStyle` is a Go string type, represented
directly as a string (`"none"`, `"single"`, ...). -/
def GetBorderStyle : Option PVal → String
  | some (PVal.bool true) => "single"
  | some (PVal.bool false) => "none"
  | some (PVal.str s) => s
  | _ => "none"

/-- Source `getDirection` (a Go string type; default `"column"`). -/
def getDirection (props : List (String × PVal)) : String :=
  match pget props "direction" with
  | some (PVal.str s) => s
  | _ => "column"

/-- Source `getJustify` (default `"start"`). -/
def getJustify (props : List (String × PVal)) : String :=
  match pget props "justify" with
  | some (PVal.str s) => s
  | _ => "start"

/-- Source `getAlign` (default `"stretch"`). -/
def getAlign (props : List (String × PVal)) : String :=
  match pget props "align" with
  | some (PVal.str s) => s
  | _ => "stretch"

/-- Source `getPosition` (default `"relative"`). -/
def getPosition (props : List (String × PVal)) : String :=
  match pget props "position" with
  | some (PVal.str s) => s
  | _ => "relative"

/-- Source `RuneWidth` of the layout package on a decoded string: the rune
count (a Lean string's length counts code points, as
`utf8.RuneCountInString` does). -/
def RuneWidth (s : String) : Nat := s.length

/-- Go integer division: truncation toward zero. -/
def goDiv (a b : Int) : Int := Int.tdiv a b

/-- The main-axis accumulation of measured sizes with a gap between
consecutive children. -/
def sumMainWithGap (gap : Int) : List Int → Int
  | [] => 0
  | s :: rest => rest.foldl (fun acc x => acc + gap + x) s

/-- The cross-axis accumulation: the running maximum starting at 0. -/
def maxFromZero (l : List Int) : Int :=
  l.foldl (fun m x => if x > m then x else m) 0

/-- Source `LayoutContext`: the available space for layout. -/
structure LayoutContext where
  x : Int
  y : Int
  width : Int
  height : Int
deriving DecidableEq, Repr

/-- Source `LayoutBox`: computed outer rectangle, inner content area, the node,
child boxes, and a z-index. -/
inductive LayoutBox where
  | mk (x y width height innerX innerY innerWidth innerHeight : Int)
       (node : Node) (children : List LayoutBox) (zIndex : Int)
deriving Repr

/-- Outer height of a layout box. -/
def LayoutBox.height : LayoutBox → Int
  | ⟨_, _, _, h, _, _, _, _, _, _, _⟩ => h

/-- Source `LayoutResult`: the node's box plus collected absolutely-positioned
boxes. -/
structure LayoutResult where
  box : LayoutBox
  absoluteBoxes : List LayoutBox
deriving Repr

/-- An intrinsic element handler: optional custom layout and measure
functions (the paint functions play no role in layout). -/
structure IntrinsicHandler where
  Layout : Option (Node → Int → Int → LayoutContext → LayoutBox)
  Measure : Option (Node → Option LayoutContext → Int × Int)

/-- The intrinsic registry as a lookup, `GetIntrinsicHandler`. -/
def Registry := String → Option IntrinsicHandler

/-- Whether a child is absolutely positioned. -/
def isAbsolute (c : Node) : Bool := getPosition c.props == "absolute"

/-- Source `filterRelativeChildren`. -/
def filterRelativeChildren (l : List Node) : List Node :=
  l.filter fun c => ! isAbsolute c

/-- Source `filterAbsoluteChildren`. -/
def filterAbsoluteChildren (l : List Node) : List Node :=
  l.filter isAbsolute

mutual

/-- Termination measure for the layout recursion: the size of a node. -/
def nodeWeight : Node → Nat
  | Node.mk _ _ children => nodesWeight children + 1

/-- Termination measure for the layout recursion: the size of a node
list. -/
def nodesWeight : List Node → Nat
  | [] => 0
  | c :: cs => nodeWeight c + nodesWeight cs + 1

end

mutual

/-- Source `measureNode`: text nodes by line extents; nodes with a non-string
type measure `(0, 0)`; an element kind with no registered handler is a
panic naming the kind (`Except.error` here); a handler's `Measure` wins;
otherwise the container recipe over the relative children. -/
def measureNode (ρ : Registry) : Node → Except String (Int × Int)
  | n@(Node.mk _ props children) =>
    if IsTextNode n then
      let text := (GetTextContent n).getD ""
      let lines := text.splitOn "\n"
      let maxWidth := lines.foldl (fun m line => if RuneWidth line > m then RuneWidth line else m) 0
      Except.ok ((maxWidth : Int), (lines.length : Int))
    else
      match TypeString n with
      | Option.none => Except.ok (0, 0)
      | some typeStr =>
        match ρ typeStr with
        | Option.none => Except.error ("goli: unknown element type: " ++ typeStr)
        | some handler =>
          match handler.Measure with
          | some f => Except.ok (f n Option.none)
          | Option.none => do
            let padding := GetSpacing props "padding"
            let border := GetBorderStyle (pget props "border")
            let borderSize : Int := if ¬ (border = "none") then 1 else 0
            let direction := getDirection props
            let gap := GetIntProp props "gap" 0
            let childSizes ← measureRelList ρ children
            let contentWidth :=
              if direction = "row" then sumMainWithGap gap (childSizes.map (·.1))
              else maxFromZero (childSizes.map (·.1))
            let contentHeight :=
              if direction = "row" then maxFromZero (childSizes.map (·.2))
              else sumMainWithGap gap (childSizes.map (·.2))
            let totalWidth := contentWidth + padding.left + padding.right + borderSize * 2
            let totalHeight := contentHeight + padding.top + padding.bottom + borderSize * 2
            let explicitWidth := GetIntProp props "width" (-1)
            let explicitHeight := GetIntProp props "height" (-1)
            let minWidth := GetIntProp props "minWidth" 0
            let minHeight := GetIntProp props "minHeight" 0
            let finalWidth := if 0 ≤ explicitWidth then explicitWidth else totalWidth
            let finalWidth := if finalWidth < minWidth then minWidth else finalWidth
            let finalHeight := if 0 ≤ explicitHeight then explicitHeight else totalHeight
            let finalHeight := if finalHeight < minHeight then minHeight else finalHeight
            Except.ok (finalWidth, finalHeight)

/-- Measuring the relatively-positioned children in order (the
`filterRelativeChildren` pass followed by per-child `measureNode`). -/
def measureRelList (ρ : Registry) : List Node → Except String (List (Int × Int))
  | [] => Except.ok []
  | c :: cs =>
    if getPosition c.props = "absolute" then measureRelList ρ cs
    else do
      let s ← measureNode ρ c
      let rest ← measureRelList ρ cs
      Except.ok (s :: rest)

end

mutual

/-- Source `layoutNode`: a non-string node type yields an empty box; fragments
lay out as a vertical column; text nodes by line extents clamped to the
available width; an element kind with no registered handler is a panic
naming the kind (`Except.error` here); a handler's `Layout` wins;
otherwise the default flex-container layout. -/
def layoutNode (ρ : Registry) : Node → LayoutContext → Except String LayoutResult
  | n@(Node.mk _ props children), ctx =>
    match TypeString n with
    | Option.none =>
      Except.ok ⟨LayoutBox.mk 0 0 0 0 0 0 0 0 n [] 0, []⟩
    | some typeStr =>
      if typeStr = "fragment" ∨ typeStr = FragmentNodeType then do
        let (fragChildren, absL, offsetY) ← layoutFragLoop ρ children ctx 0
        Except.ok ⟨LayoutBox.mk ctx.x ctx.y ctx.width offsetY ctx.x ctx.y ctx.width offsetY
          n fragChildren 0, absL⟩
      else if IsTextNode n then
        let text := (GetTextContent n).getD ""
        let lines := text.splitOn "\n"
        let maxWidth := lines.foldl (fun m line => if RuneWidth line > m then RuneWidth line else m) 0
        let w := min (maxWidth : Int) ctx.width
        let h := (lines.length : Int)
        Except.ok ⟨LayoutBox.mk ctx.x ctx.y w h ctx.x ctx.y w h n []
          (GetIntProp props "zIndex" 0), []⟩
      else
        match ρ typeStr with
        | Option.none => Except.error ("goli: unknown element type: " ++ typeStr)
        | some handler =>
          match handler.Layout with
          | some f => Except.ok ⟨f n ctx.width ctx.height ctx, []⟩
          | Option.none => do
            let padding := GetSpacing props "padding"
            let margin := GetSpacing props "margin"
            let border := GetBorderStyle (pget props "border")
            let borderSize : Int := if ¬ (border = "none") then 1 else 0
            let direction := getDirection props
            let justify := getJustify props
            let align := getAlign props
            let gap := GetIntProp props "gap" 0
            let measured ← measureNode ρ n
            let boxWidth0 := GetIntProp props "width" (-1)
            let boxWidth :=
              if boxWidth0 < 0 then
                let bw := ctx.width - margin.left - margin.right
                if bw < 0 then measured.1 else bw
              else boxWidth0
            let boxHeight0 := GetIntProp props "height" (-1)
            let boxHeight :=
              if boxHeight0 < 0 then
                let bh := ctx.height - margin.top - margin.bottom
                if bh < 0 then measured.2 else bh
              else boxHeight0
            let boxX := ctx.x + margin.left
            let boxY := ctx.y + margin.top
            let innerX := boxX + borderSize + padding.left
            let innerY := boxY + borderSize + padding.top
            let innerWidth := boxWidth - borderSize * 2 - padding.left - padding.right
            let innerHeight := boxHeight - borderSize * 2 - padding.top - padding.bottom
            let childSizes ← measureRelList ρ children
            let (childBoxes, flexAbs) ← layoutFlexChildren ρ children childSizes
              ⟨innerX, innerY, innerWidth, innerHeight⟩ direction justify align gap
            let absResults ← layoutAbsList ρ children boxX boxY ctx
            Except.ok ⟨LayoutBox.mk boxX boxY boxWidth boxHeight innerX innerY innerWidth innerHeight
              n childBoxes (GetIntProp props "zIndex" 0), flexAbs ++ absResults⟩
termination_by n _ => 2 * nodeWeight n
decreasing_by
all_goals try simp only [nodeWeight, nodesWeight]
all_goals omega

/-- Source `layoutFlexChildren` over the parent's child list: the relative
children (the loop's subjects) give the main-axis content size with
margins and gaps, the grow distribution via `growShares`, and the
justify switch; then the per-child placement loop. -/
def layoutFlexChildren (ρ : Registry) (children : List Node) (sizes : List (Int × Int))
    (ctx : LayoutContext) (direction justify align : String) (gap : Int) :
    Except String (List LayoutBox × List LayoutBox) :=
  let rel := filterRelativeChildren children
  if rel.isEmpty then Except.ok ([], [])
  else
    let isRow := direction = "row"
    let mains := (rel.zip sizes).map fun p =>
      let margin := GetSpacing p.1.props "margin"
      if isRow then margin.left + margin.right + p.2.1
      else margin.top + margin.bottom + p.2.2
    let totalMainSize := sumMainWithGap gap mains
    let availableMain := if isRow then ctx.width else ctx.height
    let availableCross := if isRow then ctx.height else ctx.width
    let grows := rel.map fun c =>
      let grow := GetIntProp c.props "grow" 0
      if isRow then (if 0 ≤ GetIntProp c.props "width" (-1) then 0 else grow)
      else (if 0 ≤ GetIntProp c.props "height" (-1) then 0 else grow)
    let extraSpace :=
      if 0 < grows.sum ∧ totalMainSize < availableMain then availableMain - totalMainSize else 0
    let shares := growShares grows extraSpace
    let n := (rel.length : Int)
    let startAndGap : Int × Int :=
      if justify = "start" then (0, 0)
      else if justify = "center" then (max 0 (goDiv (availableMain - totalMainSize) 2), 0)
      else if justify = "end" then (max 0 (availableMain - totalMainSize), 0)
      else if justify = "space-between" then
        (0, if 1 < rel.length then
          max 0 (goDiv (availableMain - totalMainSize + gap * (n - 1)) (n - 1)) else 0)
      else if justify = "space-around" then
        (if 0 < rel.length then
          let totalSpace := availableMain - totalMainSize + gap * (n - 1)
          let extraGap := goDiv totalSpace n
          (goDiv extraGap 2, extraGap)
        else (0, 0))
      else (0, 0)
    layoutFlexLoop ρ children (sizes.zip shares) isRow align availableCross ctx
      gap startAndGap.2 justify startAndGap.1
termination_by 2 * nodesWeight children + 1
decreasing_by
all_goals omega

/-- The per-child placement loop of `layoutFlexChildren`: walks the
child list, skipping absolutely-positioned children (they were filtered
out before the loop); for each relative child: margins, grow share,
cross-axis alignment, the child's layout context including its own
margins, recursion, and the main-axis advance. -/
def layoutFlexLoop (ρ : Registry) : List Node → List ((Int × Int) × Int) → Bool → String →
    Int → LayoutContext → Int → Int → String → Int →
    Except String (List LayoutBox × List LayoutBox)
  | [], _, _, _, _, _, _, _, _, _ => Except.ok ([], [])
  | c :: cs, ds', isRow, align, availableCross, ctx, gap, extraGap, justify, mainPos =>
    if isAbsolute c then
      layoutFlexLoop ρ cs ds' isRow align availableCross ctx gap extraGap justify mainPos
    else
    match ds' with
    | [] => Except.ok ([], [])
    | d :: ds => do
    let margin := GetSpacing c.props "margin"
    let childMainSize0 := if isRow then d.1.1 else d.1.2
    let childCrossSize := if isRow then d.1.2 else d.1.1
    let mainMarginBefore := if isRow then margin.left else margin.top
    let mainMarginAfter := if isRow then margin.right else margin.bottom
    let childMainSize := if 0 < d.2 then childMainSize0 + d.2 else childMainSize0
    let crossPair : Int × Int :=
      if align = "start" then (0, childCrossSize)
      else if align = "center" then (max 0 (goDiv (availableCross - childCrossSize) 2), childCrossSize)
      else if align = "end" then (max 0 (availableCross - childCrossSize), childCrossSize)
      else if align = "stretch" then (0, availableCross)
      else (0, availableCross)
    let crossPos := crossPair.1
    let actualCrossSize := crossPair.2
    let childX := if isRow then ctx.x + mainPos else ctx.x + crossPos
    let childY := if isRow then ctx.y + crossPos else ctx.y + mainPos
    let childWidth :=
      if isRow then childMainSize + margin.left + margin.right
      else actualCrossSize + margin.left + margin.right
    let childHeight :=
      if isRow then actualCrossSize + margin.top + margin.bottom
      else childMainSize + margin.top + margin.bottom
    let result ← layoutNode ρ c ⟨childX, childY, childWidth, childHeight⟩
    let effectiveGap := if justify = "space-between" ∨ justify = "space-around" then extraGap else gap
    let (boxes, absL) ← layoutFlexLoop ρ cs ds isRow align availableCross ctx gap extraGap justify
      (mainPos + mainMarginBefore + childMainSize + mainMarginAfter + effectiveGap)
    Except.ok (result.box :: boxes, result.absoluteBoxes ++ absL)
termination_by cs _ _ _ _ _ _ _ _ _ => 2 * nodesWeight cs
decreasing_by
all_goals try simp only [nodeWeight, nodesWeight]
all_goals omega

/-- The absolutely-positioned-children loop of `layoutNode`: walks the
child list, skipping relative children (the loop's subjects are the
`filterAbsoluteChildren`); each absolute child lays out from the
parent's outer origin plus its `(x, y)` props, in the remaining
available region. -/
def layoutAbsList (ρ : Registry) : List Node → Int → Int → LayoutContext →
    Except String (List LayoutBox)
  | [], _, _, _ => Except.ok []
  | c :: cs, boxX, boxY, ctx =>
    if isAbsolute c then do
      let absX := GetIntProp c.props "x" 0
      let absY := GetIntProp c.props "y" 0
      let result ← layoutNode ρ c ⟨boxX + absX, boxY + absY, ctx.width - absX, ctx.height - absY⟩
      let rest ← layoutAbsList ρ cs boxX boxY ctx
      Except.ok (result.box :: (result.absoluteBoxes ++ rest))
    else layoutAbsList ρ cs boxX boxY ctx
termination_by cs _ _ _ => 2 * nodesWeight cs
decreasing_by
all_goals try simp only [nodeWeight, nodesWeight]
all_goals omega

/-- Source `layoutFragment`'s child walk: absolute children lay out from the
ambient context; the others stack vertically, advancing by each child's
height plus bottom margin.  Returns `(children, absolutes, offsetY)`. -/
def layoutFragLoop (ρ : Registry) : List Node → LayoutContext → Int →
    Except String (List LayoutBox × List LayoutBox × Int)
  | [], _, offsetY => Except.ok ([], [], offsetY)
  | c :: cs, ctx, offsetY =>
    if getPosition c.props = "absolute" then do
      let result ← layoutNode ρ c ctx
      let (kids, absL, finalOff) ← layoutFragLoop ρ cs ctx offsetY
      Except.ok (kids, result.box :: (result.absoluteBoxes ++ absL), finalOff)
    else do
      let result ← layoutNode ρ c ⟨ctx.x, ctx.y + offsetY, ctx.width, ctx.height - offsetY⟩
      let margin := GetSpacing c.props "margin"
      let (kids, absL, finalOff) ←
        layoutFragLoop ρ cs ctx (offsetY + result.box.height + margin.bottom)
      Except.ok (result.box :: kids, result.absoluteBoxes ++ absL, finalOff)
termination_by cs _ _ => 2 * nodesWeight cs
decreasing_by
all_goals try simp only [nodeWeight, nodesWeight]
all_goals omega

end

end Goli

namespace Goli

/-- C4: `Merge(base, overlay)` takes overlay's foreground and background
colors (named field together with the RGB pointer) exactly when the
overlay's named color field is non-none, otherwise keeps base's;
OR-combines the six boolean flags; and replaces the hyperlink URL
exactly when overlay specifies one. -/
theorem merge_overlay_semantics (base overlay : Style) :
    ((¬ (overlay.color = Color.none) →
      (base.Merge overlay).color = overlay.color ∧
      (base.Merge overlay).colorRGB = overlay.colorRGB) ∧
     (overlay.color = Color.none →
      (base.Merge overlay).color = base.color ∧
      (base.Merge overlay).colorRGB = base.colorRGB)) ∧
    ((¬ (overlay.background = Color.none) →
      (base.Merge overlay).background = overlay.background ∧
      (base.Merge overlay).backgroundRGB = overlay.backgroundRGB) ∧
     (overlay.background = Color.none →
      (base.Merge overlay).background = base.background ∧
      (base.Merge overlay).backgroundRGB = base.backgroundRGB)) ∧
    ((base.Merge overlay).bold = (base.bold || overlay.bold) ∧
     (base.Merge overlay).dim = (base.dim || overlay.dim) ∧
     (base.Merge overlay).italic = (base.italic || overlay.italic) ∧
     (base.Merge overlay).underline = (base.underline || overlay.underline) ∧
     (base.Merge overlay).inverse = (base.inverse || overlay.inverse) ∧
     (base.Merge overlay).strikethrough = (base.strikethrough || overlay.strikethrough)) ∧
    ((¬ (overlay.hyperlinkURL = "") →
      (base.Merge overlay).hyperlinkURL = overlay.hyperlinkURL) ∧
     (overlay.hyperlinkURL = "" →
      (base.Merge overlay).hyperlinkURL = base.hyperlinkURL)) := by
  refine ⟨⟨fun h => ?_, fun h => ?_⟩, ⟨fun h => ?_, fun h => ?_⟩, ⟨?_, ?_, ?_, ?_, ?_, ?_⟩,
    fun h => ?_, fun h => ?_⟩
  · simp [Style.Merge, h]
  · simp [Style.Merge, h]
  · simp [Style.Merge, h]
  · simp [Style.Merge, h]
  · cases hov : overlay.bold <;> cases hb : base.bold <;> simp [Style.Merge, hov, hb]
  · cases hov : overlay.dim <;> cases hb : base.dim <;> simp [Style.Merge, hov, hb]
  · cases hov : overlay.italic <;> cases hb : base.italic <;> simp [Style.Merge, hov, hb]
  · cases hov : overlay.underline <;> cases hb : base.underline <;> simp [Style.Merge, hov, hb]
  · cases hov : overlay.inverse <;> cases hb : base.inverse <;> simp [Style.Merge, hov, hb]
  · cases hov : overlay.strikethrough <;> cases hb : base.strikethrough <;>
      simp [Style.Merge, hov, hb]
  · simp [Style.Merge, h]
  · simp [Style.Merge, h]

/-- Witness for the hypotheses of the C4 theorem at concrete styles. -/
theorem merge_overlay_semantics_witness :
    (Style.Merge EmptyStyle
      { EmptyStyle with color := Color.red, hyperlinkURL := "u" }).color = Color.red ∧
    (Style.Merge EmptyStyle
      { EmptyStyle with color := Color.red, hyperlinkURL := "u" }).hyperlinkURL = "u" := by
  refine ⟨?_, ?_⟩
  · exact ((merge_overlay_semantics EmptyStyle
      { EmptyStyle with color := Color.red, hyperlinkURL := "u" }).1.1 (by decide)).1
  · exact (merge_overlay_semantics EmptyStyle
      { EmptyStyle with color := Color.red, hyperlinkURL := "u" }).2.2.2.1 (by decide)

/-- C6: evaluation of the shipped `RuneWidth`/`WrapText` at the claim's
input.  The bytes are the UTF-8 encoding of the six CJK characters of
"日本語テスト".  `RuneWidth` returns the rune count 6 (not the display
width 12 the claim and the repository's own `TestRuneWidth` /
`TestWrapText` expect), so `WrapText(text, 6)` keeps the text as a
single line instead of wrapping it into two. -/
theorem wrapText_cjk_not_wrapped :
    Wrap.RuneWidth
      [0xE6, 0x97, 0xA5, 0xE6, 0x9C, 0xAC, 0xE8, 0xAA, 0x9E,
       0xE3, 0x83, 0x86, 0xE3, 0x82, 0xB9, 0xE3, 0x83, 0x88] = 6 ∧
    Wrap.WrapText
      [0xE6, 0x97, 0xA5, 0xE6, 0x9C, 0xAC, 0xE8, 0xAA, 0x9E,
       0xE3, 0x83, 0x86, 0xE3, 0x82, 0xB9, 0xE3, 0x83, 0x88] 6 =
    [[0xE6, 0x97, 0xA5, 0xE6, 0x9C, 0xAC, 0xE8, 0xAA, 0x9E,
      0xE3, 0x83, 0x86, 0xE3, 0x82, 0xB9, 0xE3, 0x83, 0x88]] := by
  constructor
  · rfl
  · rfl

/-- C9: a node whose element kind is a string naming no registered
intrinsic handler (and which is not the text or fragment built-in) makes
both phases abort: `measureNode` and `layoutNode` return the diagnostic
naming the offending kind rather than any box. -/
theorem unknown_kind_aborts (ρ : Registry) (n : Node) (ctx : LayoutContext) (k : String)
    (hts : TypeString n = some k)
    (htext : ¬ (k = TextNodeType))
    (hfrag1 : ¬ (k = "fragment"))
    (hfrag2 : ¬ (k = FragmentNodeType))
    (hρ : ρ k = Option.none) :
    measureNode ρ n = Except.error ("goli: unknown element type: " ++ k) ∧
    layoutNode ρ n ctx = Except.error ("goli: unknown element type: " ++ k) := by
  cases n with
  | mk ty props children =>
    cases ty with
    | comp => simp [TypeString, Node.type] at hts
    | str s =>
      simp only [TypeString, Node.type] at hts
      cases hts
      constructor
      · rw [measureNode]
        simp [IsTextNode, Node.type, TypeString, htext, hρ]
      · rw [layoutNode]
        simp [IsTextNode, Node.type, TypeString, htext, hfrag1, hfrag2, hρ]

/-- Witness for the hypotheses of the C9 theorem: an empty registry and
a node of kind `custom`. -/
theorem unknown_kind_aborts_witness :
    measureNode (fun _ => Option.none) (Node.mk (NType.str "custom") [] []) =
      Except.error "goli: unknown element type: custom" ∧
    layoutNode (fun _ => Option.none) (Node.mk (NType.str "custom") [] []) ⟨0, 0, 80, 24⟩ =
      Except.error "goli: unknown element type: custom" :=
  unknown_kind_aborts (fun _ => Option.none) (Node.mk (NType.str "custom") [] [])
    ⟨0, 0, 80, 24⟩ "custom" rfl (by decide) (by decide) (by decide) rfl

/-- Splitting a concatenation at an optional leading element. -/
theorem concatAll_ite_append (c : Prop) [Decidable c] (x : String) (l : List String) :
    concatAll ((if c then [x] else []) ++ l) = (if c then x else "") ++ concatAll l := by
  split
  · rfl
  · exact (String.empty_append _).symm

/-- Concatenating a single optional element. -/
theorem concatAll_ite_single (c : Prop) [Decidable c] (x : String) :
    concatAll (if c then [x] else []) = (if c then x else "") := by
  split
  · exact String.append_empty x
  · rfl

/-- Source `StyleToAnsi` emits exactly the specification's SGR codes in the
specification's fixed order. -/
theorem styleToAnsi_eq_spec (s : Style) :
    StyleToAnsi s = concatAll (specSgrCodes s) := by
  rw [specSgrCodes]
  rw [List.append_assoc, List.append_assoc, List.append_assoc, List.append_assoc,
    List.append_assoc, List.append_assoc]
  rw [concatAll_ite_append, concatAll_ite_append, concatAll_ite_append, concatAll_ite_append,
    concatAll_ite_append, concatAll_ite_append, concatAll_ite_append, concatAll_ite_single]
  rw [StyleToAnsi]
  simp only [Style.HasColor, Style.HasBackground, Bool.or_eq_true, decide_eq_true_eq]
  simp [String.append_assoc]

/-- Source `runLoop` agrees with the specification's per-cell encoding for
every tracked state. -/
theorem runLoop_eq_spec (cells : List Cell) :
    ∀ (tracked : Option Style) (url : String),
      runLoop cells tracked url = specRunLoop cells tracked url := by
  induction cells with
  | nil => intro tracked url; rfl
  | cons c cs ih =>
    intro tracked url
    rw [runLoop.eq_def, specRunLoop.eq_def]
    cases tracked with
    | none =>
      simp only []
      rw [styleToAnsi_eq_spec, ih]
      rfl
    | some st =>
      by_cases heq : st.Equal c.style = true
      · simp only [heq]
        by_cases hurl : c.style.hyperlinkURL = url
        · simp [heq, hurl, ih]
        · simp [heq, hurl, ih]
      · simp only [heq]
        simp [heq, ih, styleToAnsi_eq_spec, resetStr]

/-- C8: the run encoder emits exactly what the specification describes:
first a cursor move addressed 1-based at `(x+1, y+1)`, then — whenever a
cell's style differs from the tracked current style — a full reset
`CSI 0 m` followed by the new style's SGR codes in the fixed order bold,
dim, italic, underline, inverse, strikethrough, foreground, background,
before the cell's character (with OSC 8 hyperlink bracketing). -/
theorem runToAnsi_eq_spec (run : CellRun) :
    RunToAnsi run = specRunToAnsi run := by
  rw [RunToAnsi, specRunToAnsi, MoveCursor, runLoop_eq_spec]
  rfl

/-- On a duplicate-free list, searching for the element at position `j`
finds exactly position `j`. -/
theorem findIdx_getD_nodup (l : List Nat) (hnd : l.Nodup) (j : Nat) (hj : j < l.length) :
    l.findIdx? (fun g => g == l.getD j 0) = some j := by
  induction l generalizing j with
  | nil => simp at hj
  | cons a t ih =>
    cases j with
    | zero => simp [List.findIdx?_cons]
    | succ j =>
      have hj' : j < t.length := by simpa using hj
      have hnotmem : a ∉ t := (List.nodup_cons.mp hnd).1
      have hmem : t.getD j 0 ∈ t := by
        rw [List.getD_eq_getElem?_getD, List.getElem?_eq_getElem hj']
        exact List.getElem_mem hj'
      have hne : ¬ (a == t.getD j 0) = true := by
        simp only [beq_iff_eq]
        intro h
        exact hnotmem (h ▸ hmem)
      rw [List.getD_cons_succ, List.findIdx?_cons]
      simp only [hne, if_false, List.findIdx?_succ]
      rw [ih (List.nodup_cons.mp hnd).2 j hj']
      rfl

/-- An in-bounds `getD` ignores its fallback value. -/
theorem getD_default_irrel (l : List Nat) (idx : Nat) (h : idx < l.length) (d1 d2 : Nat) :
    l.getD idx d1 = l.getD idx d2 := by
  rw [List.getD_eq_getElem?_getD, List.getD_eq_getElem?_getD, List.getElem?_eq_getElem h]
  rfl

/-- Source `RequestFocus` always leaves the registration list alone and makes
`f` current. -/
theorem requestFocus_eq (m : FocusManager) (f : Nat) :
    m.RequestFocus f = ⟨m.registered, some f⟩ := by
  cases m with
  | mk reg cur =>
    rw [FocusManager.RequestFocus]
    split
    · rename_i h
      simp_all
    · rfl

/-- One `Next` step from position `j`: the focus moves to position
`(j + 1) mod k`. -/
theorem next_step (m : FocusManager) (j : Nat) (hnd : m.registered.Nodup)
    (hj : j < m.registered.length)
    (hcur : m.current = some (m.registered.getD j 0)) :
    m.Next = ⟨m.registered, some (m.registered.getD ((j + 1) % m.registered.length) 0)⟩ := by
  cases m with
  | mk reg cur =>
    simp only at hcur hj hnd
    cases reg with
    | nil => simp at hj
    | cons f0 rest =>
      rw [FocusManager.Next]
      simp only [hcur]
      rw [findIdx_getD_nodup _ hnd j hj]
      have hidx : (((j : Int) + 1) % (((f0 :: rest).length : Nat) : Int)).toNat =
          (j + 1) % (f0 :: rest).length := by
        norm_cast
      simp only [hidx, requestFocus_eq]
      rw [getD_default_irrel _ _ (Nat.mod_lt _ (by simp))]

/-- One `Prev` step from position `j`: the focus moves to position
`(j - 1 + k) mod k`. -/
theorem prev_step (m : FocusManager) (j : Nat) (hnd : m.registered.Nodup)
    (hj : j < m.registered.length)
    (hcur : m.current = some (m.registered.getD j 0)) :
    m.Prev = ⟨m.registered,
      some (m.registered.getD
        ((((j : Int) - 1 + (m.registered.length : Int)) %
          (m.registered.length : Int)).toNat) 0)⟩ := by
  cases m with
  | mk reg cur =>
    simp only at hcur hj hnd ⊢
    cases reg with
    | nil => simp at hj
    | cons f0 rest =>
      rw [FocusManager.Prev]
      simp only [hcur]
      rw [findIdx_getD_nodup _ hnd j hj]
      simp only [requestFocus_eq]
      have hlt : ((((j : Int) - 1 + ((f0 :: rest).length : Int)) %
          ((f0 :: rest).length : Int)).toNat) < (f0 :: rest).length := by
        have hpos : (0 : Int) < ((f0 :: rest).length : Int) := by
          simp
        have := Int.emod_lt_of_pos ((j : Int) - 1 + ((f0 :: rest).length : Int)) hpos
        have hnn := Int.emod_nonneg ((j : Int) - 1 + ((f0 :: rest).length : Int))
          (by omega : ((f0 :: rest).length : Int) ≠ 0)
        omega
      rw [getD_default_irrel _ _ hlt]

/-- Source `HandleKey` on Tab advances the ring. -/
theorem handleKey_tab (m : FocusManager) (eh : Nat → String → Bool)
    (gh : Option (String → Bool)) : (m.HandleKey eh gh Tab).1 = m.Next := rfl

/-- Source `HandleKey` on Shift-Tab retreats the ring. -/
theorem handleKey_shifttab (m : FocusManager) (eh : Nat → String → Bool)
    (gh : Option (String → Bool)) : (m.HandleKey eh gh ShiftTab).1 = m.Prev := by
  have h1 : ¬ (ShiftTab = Tab) := by decide
  simp [FocusManager.HandleKey, h1]

/-- Iterating Tab `n` times walks the ring forward. -/
theorem tab_iterate (m : FocusManager) (eh : Nat → String → Bool) (gh : Option (String → Bool))
    (i : Nat) (hnd : m.registered.Nodup) (hi : i < m.registered.length)
    (hcur : m.current = some (m.registered.getD i 0)) (n : Nat) :
    (fun s => (FocusManager.HandleKey s eh gh Tab).1)^[n] m =
      ⟨m.registered, some (m.registered.getD ((i + n) % m.registered.length) 0)⟩ := by
  induction n with
  | zero =>
    cases m with
    | mk reg cur =>
      simp only [Function.iterate_zero_apply, Nat.add_zero]
      simp only at hcur hi
      rw [Nat.mod_eq_of_lt hi]
      rw [hcur]
  | succ n ih =>
    rw [Function.iterate_succ_apply', ih, handleKey_tab]
    have hk : 0 < m.registered.length := by omega
    rw [next_step ⟨m.registered, some (m.registered.getD ((i + n) % m.registered.length) 0)⟩
      ((i + n) % m.registered.length) hnd (Nat.mod_lt _ hk) rfl]
    simp only [Nat.mod_add_mod]
    rfl

/-- Iterating Shift-Tab `n` times walks the ring backward. -/
theorem shifttab_iterate (m : FocusManager) (eh : Nat → String → Bool)
    (gh : Option (String → Bool))
    (i : Nat) (hnd : m.registered.Nodup) (hi : i < m.registered.length)
    (hcur : m.current = some (m.registered.getD i 0)) (n : Nat) :
    (fun s => (FocusManager.HandleKey s eh gh ShiftTab).1)^[n] m =
      ⟨m.registered, some (m.registered.getD
        ((((i : Int) - n) % (m.registered.length : Int)).toNat) 0)⟩ := by
  have hkpos : (0 : Int) < (m.registered.length : Int) := by
    exact_mod_cast Nat.pos_of_ne_zero (by omega)
  have hkne : (m.registered.length : Int) ≠ 0 := by omega
  induction n with
  | zero =>
    cases m with
    | mk reg cur =>
      simp only [Function.iterate_zero_apply, Nat.cast_zero, sub_zero]
      simp only at hcur hi hkpos
      rw [Int.emod_eq_of_lt (by omega) (by exact_mod_cast hi)]
      simp only [Int.toNat_natCast]
      rw [hcur]
  | succ n ih =>
    rw [Function.iterate_succ_apply', ih, handleKey_shifttab]
    have hidx : (((i : Int) - n) % (m.registered.length : Int)).toNat <
        m.registered.length := by
      have h1 := Int.emod_nonneg ((i : Int) - n) hkne
      have h2 := Int.emod_lt_of_pos ((i : Int) - n) hkpos
      omega
    rw [prev_step ⟨m.registered,
        some (m.registered.getD ((((i : Int) - n) % (m.registered.length : Int)).toNat) 0)⟩
      ((((i : Int) - n) % (m.registered.length : Int)).toNat) hnd hidx rfl]
    have h1 := Int.emod_nonneg ((i : Int) - n) hkne
    have harith :
        (((((i : Int) - n) % (m.registered.length : Int)).toNat : Int) - 1 +
          (m.registered.length : Int)) % (m.registered.length : Int) =
        ((i : Int) - (n + 1)) % (m.registered.length : Int) := by
      rw [Int.toNat_of_nonneg h1]
      have e1 : ((i : Int) - n) % (m.registered.length : Int) - 1 +
          (m.registered.length : Int) =
          ((i : Int) - n) % (m.registered.length : Int) - 1 +
          (m.registered.length : Int) * 1 := by ring
      rw [e1, Int.add_mul_emod_self_left]
      rw [Int.sub_emod (((i : Int) - n) % (m.registered.length : Int)) 1,
        Int.emod_emod_of_dvd _ dvd_rfl, ← Int.sub_emod]
      have e2 : (i : Int) - n - 1 = (i : Int) - (n + 1) := by ring
      rw [e2]
    simp only at harith ⊢
    rw [harith]
    rfl

/-- C7: in a focus ring of `k` distinct registered focusables with the
current focus at position `i`, applying Tab through `HandleKey` `n`
times moves the current focus to position `(i + n) mod k`, and applying
Shift-Tab `n` times moves it to position `(i - n) mod k` (with the
registration order preserved). -/
theorem focus_ring_tab_shifttab (m : FocusManager) (eh : Nat → String → Bool)
    (gh : Option (String → Bool)) (i n : Nat)
    (hnd : m.registered.Nodup) (hi : i < m.registered.length)
    (hcur : m.current = some (m.registered.getD i 0)) :
    ((fun s => (FocusManager.HandleKey s eh gh Tab).1)^[n] m).current =
      some (m.registered.getD ((i + n) % m.registered.length) 0) ∧
    ((fun s => (FocusManager.HandleKey s eh gh Tab).1)^[n] m).registered = m.registered ∧
    ((fun s => (FocusManager.HandleKey s eh gh ShiftTab).1)^[n] m).current =
      some (m.registered.getD
        ((((i : Int) - n) % (m.registered.length : Int)).toNat) 0) ∧
    ((fun s => (FocusManager.HandleKey s eh gh ShiftTab).1)^[n] m).registered =
      m.registered := by
  rw [tab_iterate m eh gh i hnd hi hcur n, shifttab_iterate m eh gh i hnd hi hcur n]
  exact ⟨rfl, rfl, rfl, rfl⟩

/-- Witness for the hypotheses of the C7 theorem: a ring of three
focusables starting at position 1; four Tabs land on position
`(1+4) mod 3 = 2`, four Shift-Tabs on `(1-4) mod 3 = 0`. -/
theorem focus_ring_tab_shifttab_witness :
    ((fun s => (FocusManager.HandleKey s (fun _ _ => false) Option.none Tab).1)^[4]
      ⟨[10, 20, 30], some 20⟩ : FocusManager).current = some 30 ∧
    ((fun s => (FocusManager.HandleKey s (fun _ _ => false) Option.none ShiftTab).1)^[4]
      ⟨[10, 20, 30], some 20⟩ : FocusManager).current = some 10 := by
  have h := focus_ring_tab_shifttab ⟨[10, 20, 30], some 20⟩ (fun _ _ => false) Option.none
    1 4 (by decide) (by decide) rfl
  exact ⟨h.1, h.2.2.1⟩

/-- Concatenating the chunks of a row restores the row. -/
theorem chunkRow_flatten (w : Nat) (hw : ¬ (w = 0)) (cells : List Cell) :
    (chunkRow w cells).flatten = cells := by
  rw [chunkRow, if_neg hw]
  by_cases he : cells.isEmpty
  · rw [if_pos he]
    cases cells with
    | nil => rfl
    | cons a t => simp at he
  · rw [if_neg he]
    rw [List.flatten_cons]
    rw [chunkRow_flatten w hw (cells.drop w)]
    exact List.take_append_drop w cells
termination_by cells.length
decreasing_by
  have hc : 0 < cells.length := by
    cases cells with
    | nil => simp at he
    | cons a l => simp
  simp only [List.length_drop]
  omega

/-- Every chunk of a row has at most `w` cells. -/
theorem chunkRow_width (w : Nat) (cells : List Cell) :
    ∀ r ∈ chunkRow w cells, r.length ≤ w := by
  intro r hr
  rw [chunkRow] at hr
  by_cases hw : w = 0
  · rw [if_pos hw] at hr
    simp at hr
  · rw [if_neg hw] at hr
    by_cases he : cells.isEmpty
    · rw [if_pos he] at hr
      simp at hr
    · rw [if_neg he, List.mem_cons] at hr
      cases hr with
      | inl h =>
        subst h
        simp [List.length_take_le]
      | inr h => exact chunkRow_width w (cells.drop w) r h
termination_by cells.length
decreasing_by
  have hc : 0 < cells.length := by
    cases cells with
    | nil => simp at he
    | cons a l => simp
  simp only [List.length_drop]
  omega

/-- The index list has one entry per logical row. -/
theorem idxFrom_length (w : Nat) : ∀ (rows : LogicalRows) (start : Nat),
    (idxFrom w start rows).length = rows.length := by
  intro rows
  induction rows with
  | nil => intro start; rfl
  | cons r rs ih => intro start; simp [idxFrom, ih]

/-- Unrolling the reflow fold: the visual rows are the per-row blocks in
order, and the recorded indices are the block offsets. -/
theorem toVisualRows_fold (w : Nat) :
    ∀ (rows : LogicalRows) (acc : VisualRows),
      (rows.foldl
        (fun acc row =>
          (⟨acc.Rows ++ (if row.isEmpty then [[]] else chunkRow w row),
            acc.LogicalToVisual ++ [acc.Rows.length]⟩ : VisualRows)) acc).Rows =
        acc.Rows ++ (rows.map (visualRowsOf w)).flatten ∧
      (rows.foldl
        (fun acc row =>
          (⟨acc.Rows ++ (if row.isEmpty then [[]] else chunkRow w row),
            acc.LogicalToVisual ++ [acc.Rows.length]⟩ : VisualRows)) acc).LogicalToVisual =
        acc.LogicalToVisual ++ idxFrom w acc.Rows.length rows := by
  intro rows
  induction rows with
  | nil => intro acc; simp [idxFrom]
  | cons r rs ih =>
    intro acc
    simp only [List.foldl_cons]
    obtain ⟨h1, h2⟩ := ih ⟨acc.Rows ++ (if r.isEmpty then [[]] else chunkRow w r),
      acc.LogicalToVisual ++ [acc.Rows.length]⟩
    constructor
    · rw [h1]
      simp [visualRowsOf, List.append_assoc]
    · rw [h2]
      simp [idxFrom, visualRowsOf, List.append_assoc, List.length_append]

/-- The slice of visual rows recorded for logical row `y` is exactly
that row's block. -/
theorem visualRows_segment (w : Nat) :
    ∀ (rows : LogicalRows) (pre : List (List Cell)) (y : Nat), y < rows.length →
      (((pre ++ (rows.map (visualRowsOf w)).flatten).drop
          ((idxFrom w pre.length rows).getD y 0)).take
        (visualRowsOf w (rows.getD y [])).length) = visualRowsOf w (rows.getD y []) := by
  intro rows
  induction rows with
  | nil => intro pre y hy; simp at hy
  | cons r rs ih =>
    intro pre y hy
    cases y with
    | zero =>
      simp only [idxFrom, List.getD_cons_zero, List.map_cons, List.flatten_cons,
        List.getD_cons_zero]
      rw [List.drop_left, List.take_left]
    | succ y =>
      have hy' : y < rs.length := by simpa using hy
      have := ih (pre ++ visualRowsOf w r) y hy'
      rw [List.length_append] at this
      simp only [idxFrom, List.getD_cons_succ, List.map_cons, List.flatten_cons,
        List.getD_cons_succ]
      rw [← List.append_assoc]
      exact this

/-- A row's visual block concatenates back to the row. -/
theorem visualRowsOf_flatten (w : Nat) (hw : ¬ (w = 0)) (row : List Cell) :
    (visualRowsOf w row).flatten = row := by
  rw [visualRowsOf]
  by_cases he : row.isEmpty
  · simp only [he, if_true]
    cases row with
    | nil => rfl
    | cons a t => simp at he
  · simp only [he, if_false]
    exact chunkRow_flatten w hw row

/-- C5: for a positive terminal width `w`, reflowing a logical buffer
produces visual rows of at most `w` cells each, records one
first-visual-row index per logical row, and concatenating the visual
rows recorded for logical row `y` (the block starting at that index)
restores exactly row `y`'s cell sequence. -/
theorem toVisualRows_reflow (rows : LogicalRows) (w : Nat) (hw : 0 < w) :
    (∀ r ∈ (ToVisualRows rows w).Rows, r.length ≤ w) ∧
    (ToVisualRows rows w).LogicalToVisual.length = rows.length ∧
    (∀ y : Nat, y < rows.length →
      ((((ToVisualRows rows w).Rows.drop
          ((ToVisualRows rows w).LogicalToVisual.getD y 0)).take
        (visualRowsOf w (rows.getD y [])).length).flatten = rows.getD y [])) := by
  have hfold := toVisualRows_fold w rows ⟨[], []⟩
  have hrows : (ToVisualRows rows w).Rows = (rows.map (visualRowsOf w)).flatten := by
    rw [ToVisualRows]
    simpa using hfold.1
  have hidx : (ToVisualRows rows w).LogicalToVisual = idxFrom w 0 rows := by
    rw [ToVisualRows]
    simpa using hfold.2
  refine ⟨?_, ?_, ?_⟩
  · intro r hr
    rw [hrows] at hr
    rw [List.mem_flatten] at hr
    obtain ⟨block, hblock, hrb⟩ := hr
    rw [List.mem_map] at hblock
    obtain ⟨row, _, hrow⟩ := hblock
    rw [← hrow, visualRowsOf] at hrb
    by_cases he : row.isEmpty
    · simp only [he, if_true, List.mem_singleton] at hrb
      subst hrb
      simp
    · simp only [he, if_false] at hrb
      exact chunkRow_width w row r hrb
  · rw [hidx, idxFrom_length]
  · intro y hy
    rw [hrows, hidx]
    have hseg := visualRows_segment w rows [] y hy
    simp only [List.length_nil, List.nil_append] at hseg
    rw [hseg]
    exact visualRowsOf_flatten w (by omega) _

/-- Witness for the hypotheses of the C5 theorem: a three-cell row and
an empty row reflowed at width 2 give visual rows of widths 2, 1, 0 with
indices 0 and 2, and each block joins back to its logical row. -/
theorem toVisualRows_reflow_witness :
    0 < 2 ∧
    (∀ r ∈ (ToVisualRows [[EmptyCell, EmptyCell, EmptyCell], []] 2).Rows, r.length ≤ 2) := by
  refine ⟨by decide, ?_⟩
  exact (toVisualRows_reflow [[EmptyCell, EmptyCell, EmptyCell], []] 2 (by decide)).1

/-- Source `rgbEqual` is reflexive. -/
theorem rgbEqual_refl (a : Option RGB) : rgbEqual a a = true := by
  cases a <;> simp [rgbEqual]

/-- Source `Style.Equal` is reflexive. -/
theorem styleEqual_refl (s : Style) : s.Equal s = true := by
  simp [Style.Equal, rgbEqual_refl]

/-- Source `Cell.Equal` is reflexive. -/
theorem cellEqual_refl (c : Cell) : c.Equal c = true := by
  simp [Cell.Equal, styleEqual_refl]

/-- Row-major indices of distinct in-bounds positions are distinct. -/
theorem index_inj (w x y x' y' : Nat) (hx : x < w) (hx' : x' < w)
    (h : y * w + x = y' * w + x') : x = x' ∧ y = y' := by
  have hw : 0 < w := by omega
  have e1 : (x + y * w) % w = x := by
    rw [Nat.add_mul_mod_self_right, Nat.mod_eq_of_lt hx]
  have e1' : (x' + y' * w) % w = x' := by
    rw [Nat.add_mul_mod_self_right, Nat.mod_eq_of_lt hx']
  have e2 : (x + y * w) / w = y := by
    rw [Nat.add_mul_div_right _ _ hw, Nat.div_eq_of_lt hx]
    omega
  have e2' : (x' + y' * w) / w = y' := by
    rw [Nat.add_mul_div_right _ _ hw, Nat.div_eq_of_lt hx']
    omega
  have hc : x + y * w = x' + y' * w := by omega
  constructor
  · rw [← e1, ← e1', hc]
  · rw [← e2, ← e2', hc]

/-- Source `Set` preserves the dimensions and the backing-list invariant. -/
theorem set_preserves (b : CellBuffer) (x y : Nat) (c : Cell) :
    (b.Set x y c).width = b.width ∧ (b.Set x y c).height = b.height ∧
    (b.WF → (b.Set x y c).WF) := by
  rw [CellBuffer.Set]
  split
  · refine ⟨rfl, rfl, ?_⟩
    intro hwf
    rw [CellBuffer.WF] at hwf ⊢
    simpa [List.length_set] using hwf
  · exact ⟨rfl, rfl, fun h => h⟩

/-- Reading back an in-bounds write. -/
theorem get_set_same (b : CellBuffer) (hwf : b.WF) (x y : Nat)
    (hx : x < b.width) (hy : y < b.height) (c : Cell) :
    (b.Set x y c).Get x y = c := by
  have hin : b.inBounds x y = true := by
    simp [CellBuffer.inBounds, hx, hy]
  rw [CellBuffer.Set, if_pos hin, CellBuffer.Get]
  have hidx : b.index x y < b.cells.length := by
    rw [hwf, CellBuffer.index]
    calc y * b.width + x < y * b.width + b.width := by omega
    _ = (y + 1) * b.width := by ring
    _ ≤ b.height * b.width := Nat.mul_le_mul_right _ (by omega)
    _ = b.width * b.height := Nat.mul_comm ..
  simp only [CellBuffer.inBounds] at hin ⊢
  rw [if_pos (by simpa using hin)]
  simp only [CellBuffer.index] at hidx ⊢
  rw [List.getD_eq_getElem?_getD, List.getElem?_set_self hidx]
  rfl

/-- A write leaves every other position unchanged. -/
theorem get_set_other (b : CellBuffer) (x y x' y' : Nat)
    (hne : ¬ (x' = x ∧ y' = y)) (c : Cell) :
    (b.Set x y c).Get x' y' = b.Get x' y' := by
  by_cases hin : b.inBounds x y = true
  · have hxy : x < b.width ∧ y < b.height := by
      simpa [CellBuffer.inBounds] using hin
    by_cases hin' : x' < b.width ∧ y' < b.height
    · have hneidx : b.index x y ≠ b.index x' y' := by
        intro h
        rw [CellBuffer.index, CellBuffer.index] at h
        obtain ⟨hx, hy⟩ := index_inj b.width x y x' y' hxy.1 hin'.1 h
        exact hne ⟨hx.symm, hy.symm⟩
      rw [CellBuffer.index, CellBuffer.index] at hneidx
      simp [CellBuffer.Set, CellBuffer.Get, CellBuffer.inBounds, CellBuffer.index,
        hxy.1, hxy.2, hin'.1, hin'.2]
      rw [List.getElem?_set_ne hneidx]
    · simp [CellBuffer.Set, CellBuffer.Get, CellBuffer.inBounds, hxy.1, hxy.2, hin']
  · rw [CellBuffer.Set, if_neg hin]

/-- Every diff entry records the target buffer's cell at its position. -/
theorem diff_mem_cell (a b : CellBuffer) (ch : CellChange) (h : ch ∈ DiffBuffers a b) :
    ch.cell = b.Get ch.x ch.y := by
  simp only [DiffBuffers, List.mem_append, List.mem_flatMap, List.mem_filterMap,
    List.mem_map, List.mem_range, List.mem_range'] at h
  rcases h with (h | h) | h
  · obtain ⟨y, _, x, _, hsome⟩ := h
    split at hsome
    · exact absurd hsome (by simp)
    · cases hsome
      rfl
  · obtain ⟨y, _, x, _, hch⟩ := h
    cases hch
    rfl
  · obtain ⟨y, _, x, _, hch⟩ := h
    cases hch
    rfl

/-- For equal-size buffers, every in-bounds position where the buffers
disagree appears in the diff. -/
theorem diff_complete (a b : CellBuffer) (hw : a.width = b.width) (hh : a.height = b.height)
    (x y : Nat) (hx : x < b.width) (hy : y < b.height)
    (hne : ¬ ((a.Get x y).Equal (b.Get x y) = true)) :
    ∃ ch ∈ DiffBuffers a b, ch.x = x ∧ ch.y = y := by
  refine ⟨⟨x, y, b.Get x y⟩, ?_, rfl, rfl⟩
  simp only [DiffBuffers, hw, hh, Nat.min_self, List.mem_append, List.mem_flatMap,
    List.mem_filterMap, List.mem_range]
  left
  left
  exact ⟨y, hy, x, hx, by rw [if_neg hne]⟩

/-- Applying a list of changes that (i) all record `B`'s cells and
(ii) cover every position where `A` disagrees with `B` produces `B`'s
cells everywhere in bounds. -/
theorem apply_changes_correct (B : CellBuffer) :
    ∀ (L : List CellChange) (A : CellBuffer), A.WF → A.width = B.width → A.height = B.height →
    (∀ ch ∈ L, ch.cell = B.Get ch.x ch.y) →
    (∀ x y, x < B.width → y < B.height → ¬ ((A.Get x y).Equal (B.Get x y) = true) →
      ∃ ch ∈ L, ch.x = x ∧ ch.y = y) →
    ∀ x y, x < B.width → y < B.height →
      ((applyChanges A L).Get x y).Equal (B.Get x y) = true := by
  intro L
  induction L with
  | nil =>
    intro A _ _ _ _ hcover x y hx hy
    by_cases heq : (A.Get x y).Equal (B.Get x y) = true
    · exact heq
    · obtain ⟨ch, hch, _⟩ := hcover x y hx hy heq
      exact absurd hch (by simp)
  | cons ch L ih =>
    intro A hwf hw hh hcell hcover x y hx hy
    rw [applyChanges, List.foldl_cons]
    have hstep := set_preserves A ch.x ch.y ch.cell
    refine ih (A.Set ch.x ch.y ch.cell) (hstep.2.2 hwf) (hstep.1.trans hw)
      (hstep.2.1.trans hh) (fun c hc => hcell c (List.mem_cons_of_mem _ hc)) ?_ x y hx hy
    intro x' y' hx' hy' hne
    by_cases hpos : x' = ch.x ∧ y' = ch.y
    · exfalso
      have hcellch : ch.cell = B.Get ch.x ch.y := hcell ch (List.mem_cons_self ..)
      have hget : (A.Set ch.x ch.y ch.cell).Get x' y' = B.Get x' y' := by
        rw [hpos.1, hpos.2, hcellch]
        exact get_set_same A hwf ch.x ch.y (by omega) (by omega) _
      rw [hget] at hne
      exact hne (cellEqual_refl _)
    · rw [get_set_other A ch.x ch.y x' y' hpos ch.cell] at hne
      obtain ⟨ch', hch', hchx, hchy⟩ := hcover x' y' hx' hy' hne
      rcases List.mem_cons.mp hch' with hc | hc
      · exact absurd ⟨by rw [← hchx, hc], by rw [← hchy, hc]⟩ hpos
      · exact ⟨ch', hc, hchx, hchy⟩

/-- C2: for equal-size cell buffers `A` and `B`, applying every change
of `DiffBuffers(A, B)` to `A` (setting cell `(x, y)` to the change's
cell) yields a buffer whose every cell compares equal (the code's
structural cell equality) to the corresponding cell of `B`. -/
theorem diff_then_patch (a b : CellBuffer) (hwf : a.WF)
    (hw : a.width = b.width) (hh : a.height = b.height) :
    ∀ x y, x < b.width → y < b.height →
      ((applyChanges a (DiffBuffers a b)).Get x y).Equal (b.Get x y) = true := by
  refine apply_changes_correct b (DiffBuffers a b) a hwf hw hh
    (fun ch hch => diff_mem_cell a b ch hch) ?_
  intro x y hx hy hne
  exact diff_complete a b hw hh x y hx hy hne

/-- Witness for the hypotheses of the C2 theorem: a 2-by-1 buffer pair
differing in the second cell; after patching, both cells compare equal
to the target. -/
theorem diff_then_patch_witness :
    (((applyChanges (CellBuffer.mk 2 1 [Cell.mk 'a' EmptyStyle, Cell.mk 'b' EmptyStyle])
        (DiffBuffers (CellBuffer.mk 2 1 [Cell.mk 'a' EmptyStyle, Cell.mk 'b' EmptyStyle])
          (CellBuffer.mk 2 1 [Cell.mk 'a' EmptyStyle, Cell.mk 'c' EmptyStyle]))).Get 1 0).Equal
      ((CellBuffer.mk 2 1 [Cell.mk 'a' EmptyStyle, Cell.mk 'c' EmptyStyle]).Get 1 0)) = true :=
  diff_then_patch (CellBuffer.mk 2 1 [Cell.mk 'a' EmptyStyle, Cell.mk 'b' EmptyStyle])
    (CellBuffer.mk 2 1 [Cell.mk 'a' EmptyStyle, Cell.mk 'c' EmptyStyle])
    (by simp [CellBuffer.WF]) (by decide) (by decide) 1 0 (by decide) (by decide)

/-- Source `getD` through a map with default 0. -/
theorem getD_map_zero (l : List Int) (f : Int → Int) (i : Nat) (hi : i < l.length) :
    (l.map f).getD i 0 = f (l.getD i 0) := by
  rw [List.getD_eq_getElem?_getD, List.getD_eq_getElem?_getD, List.getElem?_map,
    List.getElem?_eq_getElem hi]
  rfl

/-- The remainder pass preserves the number of shares. -/
theorem distributeRemainder_length : ∀ (gs ss : List Int) (r : Int),
    ss.length ≤ gs.length → (distributeRemainder gs ss r).length = ss.length := by
  intro gs
  induction gs with
  | nil =>
    intro ss r h
    cases ss with
    | nil => rfl
    | cons s t => simp at h
  | cons g gs ih =>
    intro ss r h
    cases ss with
    | nil => rfl
    | cons s t =>
      rw [distributeRemainder]
      split
      · rfl
      · split <;> simp [ih t _ (by simpa using h)]

/-- The remainder pass adds exactly `r` in total, provided `r` is
covered by the `grow > 0` entries it may bump. -/
theorem distributeRemainder_sum : ∀ (gs ss : List Int) (r : Int),
    gs.length = ss.length → 0 ≤ r →
    r ≤ ((gs.filter fun g => decide (0 < g)).length : Int) →
    (distributeRemainder gs ss r).sum = ss.sum + r := by
  intro gs
  induction gs with
  | nil =>
    intro ss r hlen h0 hr
    cases ss with
    | nil =>
      simp only [List.filter_nil, List.length_nil, Nat.cast_zero] at hr
      have : r = 0 := by omega
      simp [distributeRemainder, this]
    | cons s t => simp at hlen
  | cons g gs ih =>
    intro ss r hlen h0 hr
    cases ss with
    | nil => simp at hlen
    | cons s t =>
      rw [distributeRemainder]
      split
      · have : r = 0 := by omega
        simp [this]
      · rename_i hrpos
        split
        · rename_i hg
          have hcount : ((gs.filter fun g => decide (0 < g)).length : Int) + 1 =
              (((g :: gs).filter fun g => decide (0 < g)).length : Int) := by
            simp [List.filter_cons, hg]
          rw [List.sum_cons, List.sum_cons,
            ih t (r - 1) (by simpa using hlen) (by omega) (by omega)]
          ring
        · rename_i hg
          have hcount : (((g :: gs).filter fun g => decide (0 < g)).length : Int) =
              ((gs.filter fun g => decide (0 < g)).length : Int) := by
            simp [List.filter_cons, hg]
          rw [List.sum_cons, List.sum_cons,
            ih t r (by simpa using hlen) (by omega) (by omega)]
          ring

/-- Pointwise: the remainder pass leaves a share alone or bumps it by
one, and never touches a `grow ≤ 0` share. -/
theorem distributeRemainder_getD : ∀ (gs ss : List Int) (r : Int) (i : Nat),
    i < gs.length → gs.length = ss.length →
    ((gs.getD i 0 ≤ 0 → (distributeRemainder gs ss r).getD i 0 = ss.getD i 0) ∧
     ((distributeRemainder gs ss r).getD i 0 = ss.getD i 0 ∨
      (distributeRemainder gs ss r).getD i 0 = ss.getD i 0 + 1)) := by
  intro gs
  induction gs with
  | nil => intro ss r i hi _; simp at hi
  | cons g gs ih =>
    intro ss r i hi hlen
    cases ss with
    | nil => simp at hlen
    | cons s t =>
      rw [distributeRemainder]
      split
      · exact ⟨fun _ => rfl, Or.inl rfl⟩
      · split
        · rename_i hrpos hg
          cases i with
          | zero =>
            refine ⟨fun h => absurd h (by simpa using hg), Or.inr ?_⟩
            simp
          | succ i =>
            have := ih t (r - 1) i (by simpa using hi) (by simpa using hlen)
            simpa using this
        · cases i with
          | zero => exact ⟨fun _ => by simp, Or.inl (by simp)⟩
          | succ i =>
            have := ih t r i (by simpa using hi) (by simpa using hlen)
            simpa using this

/-- Encounter order: if a later positive-grow share was bumped, every
earlier positive-grow share was bumped too. -/
theorem distributeRemainder_order : ∀ (gs ss : List Int) (r : Int) (i j : Nat),
    i < j → j < gs.length → gs.length = ss.length → 0 < gs.getD i 0 →
    (distributeRemainder gs ss r).getD j 0 = ss.getD j 0 + 1 →
    (distributeRemainder gs ss r).getD i 0 = ss.getD i 0 + 1 := by
  intro gs
  induction gs with
  | nil => intro ss r i j _ hj _ _ _; simp at hj
  | cons g gs ih =>
    intro ss r i j hij hj hlen hgi hbump
    cases ss with
    | nil => simp at hlen
    | cons s t =>
      rw [distributeRemainder] at hbump ⊢
      by_cases hrpos : r ≤ 0
      · rw [if_pos hrpos] at hbump
        omega
      · rw [if_neg hrpos] at hbump ⊢
        cases j with
        | zero => omega
        | succ j =>
          have hj' : j < gs.length := Nat.lt_of_succ_lt_succ hj
          have hlen' : gs.length = t.length := by simpa using hlen
          by_cases hg : 0 < g
          · rw [if_pos hg] at hbump ⊢
            cases i with
            | zero => simp
            | succ i =>
              simp only [List.getD_cons_succ] at hbump hgi ⊢
              exact ih t (r - 1) i j (Nat.lt_of_succ_lt_succ hij) hj' hlen' hgi hbump
          · rw [if_neg hg] at hbump ⊢
            cases i with
            | zero =>
              exfalso
              simp only [List.getD_cons_zero] at hgi
              exact hg hgi
            | succ i =>
              simp only [List.getD_cons_succ] at hbump hgi ⊢
              exact ih t r i j (Nat.lt_of_succ_lt_succ hij) hj' hlen' hgi hbump

/-- The base shares satisfy the Euclidean identity
`G * Σ⌊E·gᵢ/G⌋ = E·Σgᵢ - Σ(E·gᵢ mod G)` for non-negative grows. -/
theorem base_sum_identity (E G : Int) :
    ∀ (l : List Int), (∀ g ∈ l, 0 ≤ g) →
    G * (l.map fun g => if 0 < g then E * g / G else 0).sum =
      E * l.sum - (l.map fun g => if 0 < g then E * g % G else 0).sum := by
  intro l
  induction l with
  | nil => simp
  | cons g t ih =>
    intro hnn
    simp only [List.map_cons, List.sum_cons]
    have iht := ih fun x hx => hnn x (List.mem_cons_of_mem _ hx)
    by_cases hg : 0 < g
    · rw [if_pos hg, if_pos hg, mul_add]
      have hdm := Int.ediv_add_emod (E * g) G
      have hexp : E * (g + t.sum) = E * g + E * t.sum := by ring
      rw [hexp]
      linarith [iht, hdm]
    · rw [if_neg hg, if_neg hg, mul_add]
      have hg0 : g = 0 := le_antisymm (by omega) (hnn g (List.mem_cons_self ..))
      subst hg0
      have hexp : E * (0 + t.sum) = E * t.sum := by ring
      rw [hexp]
      linarith [iht]

/-- The mod-remainder sum is non-negative and at most `(G-1)` per
positive-grow child. -/
theorem mod_sum_bounds (E G : Int) (hG : 0 < G) :
    ∀ (l : List Int),
    0 ≤ (l.map fun g => if 0 < g then E * g % G else 0).sum ∧
    (l.map fun g => if 0 < g then E * g % G else 0).sum ≤
      ((l.filter fun g => decide (0 < g)).length : Int) * (G - 1) := by
  intro l
  induction l with
  | nil => simp
  | cons g t ih =>
    by_cases hg : 0 < g
    · have h1 : 0 ≤ E * g % G := Int.emod_nonneg _ (by omega)
      have h2 : E * g % G < G := Int.emod_lt_of_pos _ hG
      simp only [List.map_cons, List.sum_cons, List.filter_cons, hg, decide_True, if_pos,
        if_true, List.length_cons]
      push_cast
      constructor
      · linarith [ih.1]
      · nlinarith [ih.2]
    · simp only [List.map_cons, List.sum_cons, List.filter_cons, hg, decide_False, if_neg,
        if_false]
      rw [if_neg (by simp : ¬ (false = true))]
      constructor
      · linarith [ih.1]
      · linarith [ih.2]

/-- A non-negative list with positive sum has a positive entry. -/
theorem countPos_pos (l : List Int) (hnn : ∀ g ∈ l, 0 ≤ g) (hG : 0 < l.sum) :
    1 ≤ ((l.filter fun g => decide (0 < g)).length : Int) := by
  induction l with
  | nil => simp at hG
  | cons g t ih =>
    by_cases hg : 0 < g
    · simp only [List.filter_cons, hg, decide_True, if_true, List.length_cons]
      push_cast
      have : (0 : Int) ≤ ((t.filter fun g => decide (0 < g)).length : Int) := by positivity
      omega
    · have hg0 : g = 0 := le_antisymm (by omega) (hnn g (List.mem_cons_self ..))
      have htsum : 0 < t.sum := by
        rw [List.sum_cons, hg0] at hG
        omega
      have := ih (fun x hx => hnn x (List.mem_cons_of_mem _ hx)) htsum
      simpa [List.filter_cons, hg] using this

/-- C3: for children with non-negative grow values summing to `G > 0`
and extra space `E ≥ 0`, the grow distribution hands each `grow > 0`
child `⌊E·growᵢ/G⌋` or one more, never touches `grow ≤ 0` children,
bumps by one only an initial run (in encounter order) of the `grow > 0`
children, and the assigned extras sum exactly to `E`; as a pure function
of `(grows, E)` the distribution is deterministic. -/
theorem flex_grow_distribution (grows : List Int) (E : Int)
    (hnn : ∀ g ∈ grows, 0 ≤ g) (hG : 0 < grows.sum) (hE : 0 ≤ E) :
    (growShares grows E).length = grows.length ∧
    (growShares grows E).sum = E ∧
    (∀ i : Nat, i < grows.length →
      (grows.getD i 0 ≤ 0 → (growShares grows E).getD i 0 = 0) ∧
      (0 < grows.getD i 0 →
        ((growShares grows E).getD i 0 = E * grows.getD i 0 / grows.sum ∨
         (growShares grows E).getD i 0 = E * grows.getD i 0 / grows.sum + 1))) ∧
    (∀ i j : Nat, i < j → j < grows.length → 0 < grows.getD i 0 →
      (growShares grows E).getD j 0 = E * grows.getD j 0 / grows.sum + 1 →
      (growShares grows E).getD i 0 = E * grows.getD i 0 / grows.sum + 1) := by
  by_cases hE0 : E = 0
  · subst hE0
    rw [growShares]
    rw [if_neg (by omega)]
    refine ⟨by simp, by simp, fun i hi => ?_, fun i j hij hj hgi hbump => ?_⟩
    · rw [getD_map_zero _ _ i hi]
      refine ⟨fun _ => rfl, fun hgi => Or.inl ?_⟩
      simp
    · rw [getD_map_zero _ _ j hj] at hbump
      have : (0 : Int) * grows.getD j 0 / grows.sum = 0 := by simp
      omega
  · have hEpos : 0 < E := by omega
    rw [growShares]
    rw [if_pos ⟨hG, hEpos⟩]
    have hlenb : (grows.map fun g => if 0 < g then E * g / grows.sum else 0).length =
        grows.length := by simp
    have hsum_id := base_sum_identity E grows.sum grows hnn
    have hmod := mod_sum_bounds E grows.sum hG grows
    have hcount := countPos_pos grows hnn hG
    have hGR : grows.sum *
        (E - (grows.map fun g => if 0 < g then E * g / grows.sum else 0).sum) =
        (grows.map fun g => if 0 < g then E * g % grows.sum else 0).sum := by
      rw [mul_sub]
      linarith [hsum_id]
    have hR0 : 0 ≤ E - (grows.map fun g => if 0 < g then E * g / grows.sum else 0).sum := by
      by_contra hneg
      push_neg at hneg
      have hlt : grows.sum *
          (E - (grows.map fun g => if 0 < g then E * g / grows.sum else 0).sum) < 0 :=
        mul_neg_of_pos_of_neg hG hneg
      linarith [hGR, hmod.1]
    have hRc : E - (grows.map fun g => if 0 < g then E * g / grows.sum else 0).sum ≤
        ((grows.filter fun g => decide (0 < g)).length : Int) := by
      have h1 : grows.sum *
          (E - (grows.map fun g => if 0 < g then E * g / grows.sum else 0).sum) <
          grows.sum * ((grows.filter fun g => decide (0 < g)).length : Int) := by
        nlinarith [hGR, hmod.2, hcount]
      have := lt_of_mul_lt_mul_left h1 (le_of_lt hG)
      omega
    refine ⟨?_, ?_, fun i hi => ?_, fun i j hij hj hgi hbump => ?_⟩
    · rw [distributeRemainder_length grows _ _ (by rw [hlenb])]
      exact hlenb
    · rw [distributeRemainder_sum grows _ _ (by rw [hlenb]) hR0 hRc]
      ring
    · have hget := distributeRemainder_getD grows
        (grows.map fun g => if 0 < g then E * g / grows.sum else 0)
        (E - (grows.map fun g => if 0 < g then E * g / grows.sum else 0).sum)
        i hi (by rw [hlenb])
      rw [getD_map_zero _ _ i hi] at hget
      constructor
      · intro hgle
        rw [hget.1 hgle, if_neg (by omega)]
      · intro hgi
        rcases hget.2 with h | h
        · left
          rw [h, if_pos hgi]
        · right
          rw [h, if_pos hgi]
    · by_cases hgj : 0 < grows.getD j 0
      · have hbump' := hbump
        rw [show E * grows.getD j 0 / grows.sum =
            (grows.map fun g => if 0 < g then E * g / grows.sum else 0).getD j 0 from by
          rw [getD_map_zero _ _ j hj, if_pos hgj]] at hbump'
        have hord := distributeRemainder_order grows
          (grows.map fun g => if 0 < g then E * g / grows.sum else 0)
          (E - (grows.map fun g => if 0 < g then E * g / grows.sum else 0).sum)
          i j hij hj (by rw [hlenb]) hgi hbump'
        rw [hord, getD_map_zero _ _ i (by omega), if_pos hgi]
      · exfalso
        have hget := distributeRemainder_getD grows
          (grows.map fun g => if 0 < g then E * g / grows.sum else 0)
          (E - (grows.map fun g => if 0 < g then E * g / grows.sum else 0).sum)
          j hj (by rw [hlenb])
        rw [getD_map_zero _ _ j hj] at hget
        have hz := hget.1 (by omega)
        rw [if_neg hgj] at hz
        have hgj0 : grows.getD j 0 = 0 := by
          have hmem : grows.getD j 0 ∈ grows := by
            rw [List.getD_eq_getElem?_getD, List.getElem?_eq_getElem hj]
            exact List.getElem_mem hj
          have := hnn _ hmem
          omega
        rw [hz, hgj0] at hbump
        simp at hbump

/-- Witness for the hypotheses of the C3 theorem: grows `[1, 1, 1]` with
10 extra cells distribute as `[4, 3, 3]`, summing to 10. -/
theorem flex_grow_distribution_witness :
    growShares [1, 1, 1] 10 = [4, 3, 3] ∧ (growShares [1, 1, 1] 10).sum = 10 := by
  refine ⟨by decide, ?_⟩
  exact (flex_grow_distribution [1, 1, 1] 10 (by decide) (by decide) (by decide)).2.1

/-- Folding `addPendingComputation` over a subscriber list: only the
pending set changes, gaining exactly the subscribers, without
duplicates. -/
theorem addPending_fold {α : Type} : ∀ (subs : List Nat) (st : RtState α),
    (subs.foldl addPending st).batchDepth = st.batchDepth ∧
    (subs.foldl addPending st).subscribers = st.subscribers ∧
    (subs.foldl addPending st).execCount = st.execCount ∧
    (∀ c, c ∈ (subs.foldl addPending st).pending ↔ c ∈ st.pending ∨ c ∈ subs) ∧
    (st.pending.Nodup → (subs.foldl addPending st).pending.Nodup) := by
  intro subs
  induction subs with
  | nil =>
    intro st
    exact ⟨rfl, rfl, rfl, fun c => by simp, fun h => h⟩
  | cons a t ih =>
    intro st
    rw [List.foldl_cons]
    have hstep : (addPending st a).batchDepth = st.batchDepth ∧
        (addPending st a).subscribers = st.subscribers ∧
        (addPending st a).execCount = st.execCount ∧
        (∀ c, c ∈ (addPending st a).pending ↔ c ∈ st.pending ∨ c = a) ∧
        (st.pending.Nodup → (addPending st a).pending.Nodup) := by
      rw [addPending]
      split
      · rename_i hmem
        refine ⟨rfl, rfl, rfl, fun c => ?_, fun h => h⟩
        constructor
        · exact fun h => Or.inl h
        · rintro (h | h)
          · exact h
          · exact h ▸ hmem
      · rename_i hmem
        refine ⟨rfl, rfl, rfl, fun c => ?_, fun h => ?_⟩
        · simp [List.mem_append]
        · simp only
          rw [List.nodup_append]
          exact ⟨h, List.nodup_singleton a, by
            intro x hx hxa
            rw [List.mem_singleton] at hxa
            exact hmem (hxa ▸ hx)⟩
    obtain ⟨h1, h2, h3, h4, h5⟩ := ih (addPending st a)
    refine ⟨h1.trans hstep.1, h2.trans hstep.2.1, h3.trans hstep.2.2.1, fun c => ?_,
      fun h => h5 (hstep.2.2.2.2 h)⟩
    rw [h4 c, hstep.2.2.2.1 c, List.mem_cons]
    tauto

/-- Folding the batched writes: depth, subscriptions and execution
counts are untouched; the pending set gains exactly the subscribers of
the written signals. -/
theorem writes_fold {α : Type} : ∀ (ws : List (Nat × α)) (st : RtState α), 0 < st.batchDepth →
    ((ws.foldl (fun s w => writeSignal s w.1 w.2) st).batchDepth = st.batchDepth ∧
     (ws.foldl (fun s w => writeSignal s w.1 w.2) st).subscribers = st.subscribers ∧
     (ws.foldl (fun s w => writeSignal s w.1 w.2) st).execCount = st.execCount ∧
     (∀ c, c ∈ (ws.foldl (fun s w => writeSignal s w.1 w.2) st).pending ↔
       c ∈ st.pending ∨ ∃ w ∈ ws, c ∈ st.subscribers w.1) ∧
     (st.pending.Nodup →
       (ws.foldl (fun s w => writeSignal s w.1 w.2) st).pending.Nodup)) := by
  intro ws
  induction ws with
  | nil =>
    intro st _
    exact ⟨rfl, rfl, rfl, fun c => by simp, fun h => h⟩
  | cons w ws ih =>
    intro st hdepth
    rw [List.foldl_cons]
    have hstep : (writeSignal st w.1 w.2).batchDepth = st.batchDepth ∧
        (writeSignal st w.1 w.2).subscribers = st.subscribers ∧
        (writeSignal st w.1 w.2).execCount = st.execCount ∧
        (∀ c, c ∈ (writeSignal st w.1 w.2).pending ↔
          c ∈ st.pending ∨ c ∈ st.subscribers w.1) ∧
        (st.pending.Nodup → (writeSignal st w.1 w.2).pending.Nodup) := by
      rw [writeSignal]
      simp only
      rw [if_pos (by simpa using hdepth)]
      exact addPending_fold (st.subscribers w.1) _
    have hdepth' : 0 < (writeSignal st w.1 w.2).batchDepth := by
      rw [hstep.1]; exact hdepth
    obtain ⟨h1, h2, h3, h4, h5⟩ := ih (writeSignal st w.1 w.2) hdepth'
    refine ⟨h1.trans hstep.1, h2.trans hstep.2.1, h3.trans hstep.2.2.1, fun c => ?_,
      fun h => h5 (hstep.2.2.2.2 h)⟩
    rw [h4 c, hstep.2.2.2.1 c, hstep.2.1]
    simp only [List.mem_cons]
    constructor
    · rintro ((h | h) | ⟨w', hw', hc⟩)
      · exact Or.inl h
      · exact Or.inr ⟨w, Or.inl rfl, h⟩
      · exact Or.inr ⟨w', Or.inr hw', hc⟩
    · rintro (h | ⟨w', hw' | hw', hc⟩)
      · exact Or.inl (Or.inl h)
      · exact Or.inl (Or.inr (hw' ▸ hc))
      · exact Or.inr ⟨w', hw', hc⟩

/-- Folding `execute` over the drained snapshot bumps each computation
once per occurrence. -/
theorem exec_fold {α : Type} : ∀ (l : List Nat) (st : RtState α) (c : Nat),
    (l.foldl executeComp st).execCount c = st.execCount c + l.count c := by
  intro l
  induction l with
  | nil => intro st c; simp
  | cons a t ih =>
    intro st c
    rw [List.foldl_cons, ih]
    rw [executeComp]
    simp only
    by_cases hca : c = a
    · subst hca
      rw [if_pos rfl, List.count_cons]
      simp
      omega
    · rw [if_neg hca, List.count_cons]
      have : ¬ (a == c) = true := by
        simp only [beq_iff_eq]
        exact fun h => hca h.symm
      simp [this]

/-- Flushing executes each pending computation once per occurrence and
nothing else. -/
theorem flush_count {α : Type} (st : RtState α) (c : Nat) :
    (flushPending st).execCount c = st.execCount c + st.pending.count c := by
  rw [flushPending]
  rw [exec_fold]

/-- C1: a `Batch` whose body performs a list of signal writes, started
outside any batch with an empty pending set, executes a subscribed
computation at most once after the batch completes; exactly once when
some write targets a signal it subscribes (in particular whenever a
write changed a value it observed), and not at all when no write touches
its signals. -/
theorem batch_effect_runs_once {α : Type} (st : RtState α) (ws : List (Nat × α)) (e : Nat)
    (hdepth : st.batchDepth = 0) (hpending : st.pending = []) :
    ((batchWrites st ws).execCount e ≤ st.execCount e + 1) ∧
    ((∃ w ∈ ws, e ∈ st.subscribers w.1) →
      (batchWrites st ws).execCount e = st.execCount e + 1) ∧
    ((∃ w ∈ ws, e ∈ st.subscribers w.1 ∧ ¬ (w.2 = st.values w.1)) →
      (batchWrites st ws).execCount e = st.execCount e + 1) ∧
    ((∀ w ∈ ws, e ∉ st.subscribers w.1) →
      (batchWrites st ws).execCount e = st.execCount e) := by
  rw [batchWrites]
  simp only
  have hd1 : (0 : Nat) < ({ st with batchDepth := st.batchDepth + 1 } : RtState α).batchDepth := by
    simp
  obtain ⟨h1, h2, h3, h4, h5⟩ := writes_fold ws { st with batchDepth := st.batchDepth + 1 } hd1
  set st2 := ws.foldl (fun s w => writeSignal s w.1 w.2)
    ({ st with batchDepth := st.batchDepth + 1 } : RtState α) with hst2
  have hzero : st2.batchDepth - 1 = 0 := by
    rw [h1]
    simp [hdepth]
  rw [if_pos hzero]
  rw [flush_count]
  have hecount : ({ st2 with batchDepth := st2.batchDepth - 1 } : RtState α).execCount e =
      st.execCount e := by
    have := congrFun h3 e
    simpa using this
  rw [hecount]
  have hnodup : st2.pending.Nodup := by
    refine h5 ?_
    simp [hpending]
  have hmem : ∀ c, c ∈ st2.pending ↔ ∃ w ∈ ws, c ∈ st.subscribers w.1 := by
    intro c
    rw [h4 c]
    simp [hpending]
  refine ⟨?_, ?_, ?_, ?_⟩
  · by_cases hin : e ∈ st2.pending
    · rw [List.count_eq_one_of_mem hnodup hin]
    · rw [List.count_eq_zero.mpr hin]
      omega
  · intro hsub
    rw [List.count_eq_one_of_mem hnodup ((hmem e).mpr hsub)]
  · rintro ⟨w, hw, hws, _⟩
    rw [List.count_eq_one_of_mem hnodup ((hmem e).mpr ⟨w, hw, hws⟩)]
  · intro hnone
    have : e ∉ st2.pending := by
      rw [hmem e]
      rintro ⟨w, hw, hc⟩
      exact hnone w hw hc
    rw [List.count_eq_zero.mpr this]
    omega

/-- Witness for the hypotheses of the C1 theorem: one effect subscribed
to signals 0 and 1; a batch of three writes (two of them to observed
signals, one changing the value) runs it exactly once. -/
theorem batch_effect_runs_once_witness :
    (batchWrites
      (⟨fun _ => 0, fun s => if s = 0 ∨ s = 1 then [7] else [], 0, [], fun _ => 0⟩ :
        RtState Nat) [(0, 5), (1, 6), (0, 9)]).execCount 7 = 1 := by
  have h := batch_effect_runs_once
    (⟨fun _ => 0, fun s => if s = 0 ∨ s = 1 then [7] else [], 0, [], fun _ => 0⟩ : RtState Nat)
    [(0, 5), (1, 6), (0, 9)] 7 rfl rfl
  have := h.2.1 ⟨(0, 5), by simp, by simp⟩
  simpa using this

/-- C10: an overlay whose named color field is none but whose RGB
pointer is set — exactly what `toColor` produces for an RGB prop value —
never overrides base's color through `Merge`: base's named color and RGB
pointer survive and the overlay's RGB is discarded (likewise for the
background channel). -/
theorem merge_rgb_only_overlay_ignored (base overlay : Style) (rgb : RGB) :
    (toColor (ColorProp.rgbVal rgb) = (Color.none, some rgb)) ∧
    (overlay.color = Color.none →
      (base.Merge overlay).color = base.color ∧
      (base.Merge overlay).colorRGB = base.colorRGB) ∧
    (overlay.background = Color.none →
      (base.Merge overlay).background = base.background ∧
      (base.Merge overlay).backgroundRGB = base.backgroundRGB) := by
  refine ⟨rfl, fun h => ?_, fun h => ?_⟩ <;> simp [Style.Merge, h]

/-- Witness for the hypotheses of the C10 theorem: an RGB-only overlay
foreground leaves a red base foreground in place. -/
theorem merge_rgb_only_overlay_ignored_witness :
    (Style.Merge { EmptyStyle with color := Color.red }
      { EmptyStyle with colorRGB := some ⟨1, 2, 3⟩ }).color = Color.red ∧
    (Style.Merge { EmptyStyle with color := Color.red }
      { EmptyStyle with colorRGB := some ⟨1, 2, 3⟩ }).colorRGB = Option.none := by
  exact (merge_rgb_only_overlay_ignored { EmptyStyle with color := Color.red }
    { EmptyStyle with colorRGB := some ⟨1, 2, 3⟩ } ⟨1, 2, 3⟩).2.1 (by decide)

end Goli
